import Mathlib

/-!
Verification development for the `FDCleaner` data-cleaning pipeline
(`Data_cleaning/dataCleaning.py`).

The pipeline operates on an in-memory pandas `DataFrame`.  We embed the
table shallowly: a table is an ordered list of named, dtype-tagged columns,
each holding a list of cell values.  Cell values are tagged
(`vInt`/`vFloat`/`vStr`/`vNA`), mirroring the mixed-type object columns that
the cleaner produces; float payloads are modelled as rationals.  The two
external collaborators of the core (`fuzzywuzzy`'s similarity scoring and
pandas' date parser) are passed in as explicit function parameters, per the
specification's interface contracts for them.
-/

namespace FDClean

/-- A cell value of the table.  Mirrors the dynamic typing of pandas cells:
an integer, a float (modelled as `ℚ`), a string, or a missing value
(`NaN`/`None`). -/
inductive Value where
  | vInt   : Int → Value
  | vFloat : ℚ → Value
  | vStr   : String → Value
  | vNA    : Value
deriving DecidableEq, Repr

/-- The storage dtype of a column, as pandas tracks it: `int64`, `float64`,
or `object`.  `select_dtypes` and `is_numeric_dtype` in the source dispatch
on this tag, not on the cell values. -/
inductive DType where
  | int64 | float64 | obj
deriving DecidableEq, Repr

/-- A named column: its (possibly already standardized) label, its storage
dtype and its cell vector. -/
structure Col where
  name  : String
  dtype : DType
  vals  : List Value
deriving DecidableEq, Repr

/-- A table is an ordered list of columns (`self.df`). -/
abbrev Table := List Col

/-- The sentinel written into missing cells (the string `"null"` in the
source). -/
def NULL_MARKER : String := "null"

/-- Python's `str.lower()` on one character, for the basic latin range the
source's data uses (mirrors `Char.toLower`). -/
def pyLowerChar (c : Char) : Char :=
  if 65 ≤ c.toNat ∧ c.toNat ≤ 90 then Char.ofNat (c.toNat + 32) else c

/-- `str.lower()` on a string. -/
def pyLower (s : String) : String := ⟨s.data.map pyLowerChar⟩

/-- `str.strip()` on a character list: drop leading and trailing
whitespace. -/
def trimChars (cs : List Char) : List Char :=
  ((cs.dropWhile Char.isWhitespace).reverse.dropWhile Char.isWhitespace).reverse

/-- `str.strip()` on a string. -/
def pyStrip (s : String) : String := ⟨trimChars s.data⟩

/-- Distinct elements of a list in first-occurrence order, as
`pandas.Series.unique` returns them.  `seen` accumulates elements already
emitted. -/
def dedupFirstAux {α} [DecidableEq α] (seen : List α) : List α → List α
  | [] => []
  | a :: as =>
    if a ∈ seen then dedupFirstAux seen as
    else a :: dedupFirstAux (a :: seen) as

/-- Distinct elements in first-occurrence order. -/
def dedupFirst {α} [DecidableEq α] (l : List α) : List α := dedupFirstAux [] l

/-! ### Step 1 — `self.df.drop_duplicates(inplace=True)` -/

/-- Row count of the table (`len(self.df)`). -/
def nRows (t : Table) : Nat :=
  match t with
  | [] => 0
  | c :: _ => c.vals.length

/-- The list of row vectors of the table (cell `i` of every column). -/
def rowsOf (t : Table) : List (List Value) :=
  (List.range (nRows t)).map (fun i => t.map (fun c => c.vals.getD i .vNA))

/-- `True` at each position holding the first occurrence of its row, `False`
at later duplicates — the complement of `DataFrame.duplicated()`. -/
def firstOccFlags {α} [DecidableEq α] (seen : List α) : List α → List Bool
  | [] => []
  | a :: as => (decide (a ∉ seen)) :: firstOccFlags (a :: seen) as

/-- Keep the entries of `vs` whose flag is `true`. -/
def maskList {α} (bs : List Bool) (vs : List α) : List α :=
  ((bs.zip vs).filter (·.1)).map (·.2)

/-- Step 1: remove exact duplicate rows, keeping first occurrences
(`drop_duplicates`). -/
def rowDedup (t : Table) : Table :=
  let flags := firstOccFlags [] (rowsOf t)
  t.map (fun c => { c with vals := maskList flags c.vals })

/-! ### Step 2 — fill missing values with the `"null"` sentinel -/

/-- Replace a missing cell by the sentinel string (`fillna("null")`). -/
def fillVal : Value → Value
  | .vNA => .vStr NULL_MARKER
  | v => v

/-- `pd.api.types.is_numeric_dtype`. -/
def isNumericDtype : DType → Bool
  | .int64 => true
  | .float64 => true
  | .obj => false

/-- Step 2, per column: if the column contains a missing value, fill every
missing cell with `"null"`; a numeric column is first converted to dtype
`object` (`astype('object')`). -/
def fillMissingCol (c : Col) : Col :=
  if c.vals.contains .vNA then
    if isNumericDtype c.dtype then ⟨c.name, .obj, c.vals.map fillVal⟩
    else ⟨c.name, c.dtype, c.vals.map fillVal⟩
  else c

/-- Step 2 over the whole table. -/
def fillMissing (t : Table) : Table := t.map fillMissingCol

/-! ### Step 3 — standardize formats (text, dates, floats) -/

/-- The text cleanup applied to every cell of a text column: strings other
than the sentinel are lowercased and stripped
(`x.lower().strip() if isinstance(x, str) and x != "null" else x`). -/
def lowerTrimVal : Value → Value
  | .vStr s => if s = NULL_MARKER then .vStr s else .vStr (pyStrip (pyLower s))
  | v => v

/-- Character-list prefix test (used to build the substring test). -/
def prefixOfChars : List Char → List Char → Bool
  | [], _ => true
  | _ :: _, [] => false
  | a :: as, b :: bs => a = b && prefixOfChars as bs

/-- Does `hay` contain `pat` as a contiguous substring (Python's `in`)? -/
def strContains (hay pat : String) : Bool :=
  (List.range (hay.data.length + 1)).any
    (fun i => prefixOfChars pat.data (hay.data.drop i))

/-- A column is a date candidate when its lowercased name contains
`"date"`, `"time"` or `"_at"`
(`any(term in col.lower() for term in ['date','time','_at'])`). -/
def isDateCandidate (name : String) : Bool :=
  strContains (pyLower name) "date" || strContains (pyLower name) "time" ||
    strContains (pyLower name) "_at"

/-- Step 3, text sub-pass for one column: the columns named in the
`text_cols` snapshot get every cell lowercased/stripped. -/
def textLowerCol (textNames : List String) (c : Col) : Col :=
  if textNames.contains c.name then { c with vals := c.vals.map lowerTrimVal } else c

/-- Step 3, date sub-pass for one column.  `dparse` stands for
`pd.to_datetime(..., errors='coerce')` followed by `strftime('%Y-%m-%d')`:
it returns the ISO rendering of a cell when the cell parses as a date and
`none` otherwise.  The source computes `temp_col.notna().mean() > 0.8`
— the parse rate over *all* rows of the column — and on success rewrites
exactly the parseable cells. -/
def dateStdCol (dparse : Value → Option String) (c : Col) : Col :=
  if isDateCandidate c.name then
    let parsed := c.vals.map dparse
    if 5 * parsed.countP (·.isSome) > 4 * c.vals.length then
      ⟨c.name, .obj,
        c.vals.zipWith (fun v p => match p with | some s => .vStr s | none => v) parsed⟩
    else c
  else c

/-- Round half to even at integer precision (the rounding of
`numpy`/`pandas.round`). -/
def halfEven (q : ℚ) : Int :=
  let f := ⌊q⌋
  if q - f < 1/2 then f
  else if 1/2 < q - f then f + 1
  else if f % 2 = 0 then f else f + 1

/-- `Series.round(2)` on one cell value. -/
def round2 (q : ℚ) : ℚ := (halfEven (100 * q) : ℚ) / 100

/-- Round a float cell to two decimals; other cells (incl. `NaN`) pass
through. -/
def roundVal : Value → Value
  | .vFloat q => .vFloat (round2 q)
  | v => v

/-- Step 3, float sub-pass for one column: only columns whose dtype is
`float` are selected (`select_dtypes(include=['float'])`). -/
def roundFloatsCol (c : Col) : Col :=
  if c.dtype = .float64 then { c with vals := c.vals.map roundVal } else c

/-! ### Step 4 — fix inconsistent values (fuzzy consolidation) -/

/-- `nunique()`: number of distinct non-`NaN` values of a column (the
sentinel string counts as an ordinary value here). -/
def nuniqueCol (c : Col) : Nat :=
  (dedupFirst (c.vals.filter (· ≠ .vNA))).length

/-- The distinct values submitted to fuzzy matching: distinct non-`NaN`
values, in first-occurrence order, that are strings different from the
sentinel (`[val for val in df[col].dropna().unique() if val != "null" and
isinstance(val, str)]`). -/
def uniqueStrs (c : Col) : List String :=
  (dedupFirst (c.vals.filter (· ≠ .vNA))).filterMap
    (fun v => match v with
      | .vStr s => if s = NULL_MARKER then none else some s
      | _ => none)

/-- Modelled from the spec: `fuzzywuzzy.process.extractBests(val, choices,
score_cutoff=85)`, the external similarity collaborator, described in the
spec as keeping every candidate scoring at least the cutoff against the
query, in the candidates' original order. -/
def extractBests (sim : String → String → Nat) (query : String)
    (choices : List String) : List String :=
  choices.filter (fun v => 85 ≤ sim query v)

/-- Row frequency of a string value in a column's cells
(`self.df[col].value_counts()` looked up at that value). -/
def freqIn (vals : List Value) (s : String) : Nat :=
  vals.countP (· = .vStr s)

/-- `counts.loc[similar].idxmax()`: the first member of `l` attaining the
maximal frequency (`idxmax` returns the first maximum in index order). -/
def pickStandard (freq : String → Nat) : List String → String
  | [] => ""
  | s :: rest => rest.foldl (fun best x => if freq best < freq x then x else best) s

/-- Insert-or-overwrite into the `changes` dict (`changes[match_val] =
standard`), preserving insertion order as Python dicts do. -/
def updateAssoc (m : List (String × String)) (k v : String) :
    List (String × String) :=
  if m.any (·.1 = k) then m.map (fun p => if p.1 = k then (k, v) else p)
  else m ++ [(k, v)]

/-- The seed loop of step 4 over the distinct values `uniq` of one column:
threads the `processed` set and the `changes` dict exactly as the source
does.  A seed already processed is skipped; otherwise its match set is
computed against the full `uniq` list, and when the match set has more than
one member its most frequent member (first on ties) becomes the standard,
every other member is written to `changes`, and all members are marked
processed. -/
def fuzzyLoop (sim : String → String → Nat) (freq : String → Nat)
    (uniq : List String) : List String × List (String × String) :=
  uniq.foldl
    (fun st v =>
      let processed := st.1
      let changes := st.2
      if v ∈ processed then st
      else
        let ms := extractBests sim v uniq
        if 1 < ms.length then
          let standard := pickStandard freq ms
          let changes2 := ms.foldl
            (fun ch m => if m ≠ standard then updateAssoc ch m standard else ch)
            changes
          (processed ++ ms.filter (· ≠ standard) ++ [standard], changes2)
        else st)
    ([], [])

/-- `self.df[col].replace(changes)`: rewrite every cell whose value equals a
key of `changes` to the associated standard. -/
def applyChanges (changes : List (String × String)) (vals : List Value) :
    List Value :=
  vals.map (fun v => match v with
    | .vStr s => match changes.lookup s with
                 | some t => .vStr t
                 | none => v
    | v => v)

/-- Step 4 body for one column that passed the `cat_cols` gate: skip when at
most one distinct non-sentinel string remains, otherwise run the seed loop
and apply the accumulated changes (if any). -/
def fuzzyFixCol (sim : String → String → Nat) (c : Col) : Col :=
  let uniq := uniqueStrs c
  if uniq.length ≤ 1 then c
  else
    let changes := (fuzzyLoop sim (freqIn c.vals) uniq).2
    if changes = [] then c
    else { c with vals := applyChanges changes c.vals }

/-- Step 4 gate for one column: it must be one of the text columns captured
at step 3 (`text_cols`) and satisfy `1 < nunique() < 50` (`cat_cols`). -/
def fuzzyStep (sim : String → String → Nat) (textNames : List String)
    (c : Col) : Col :=
  if c.name ∈ textNames ∧ 1 < nuniqueCol c ∧ nuniqueCol c < 50 then
    fuzzyFixCol sim c
  else c

/-- Step 4 over the whole table. -/
def fuzzyFix (sim : String → String → Nat) (textNames : List String)
    (t : Table) : Table :=
  t.map (fuzzyStep sim textNames)

/-! ### Step 6 — remove redundant (duplicate) columns -/

/-- `Series.equals`: element-wise identical values of identical dtype.
Differing dtypes are never equal, even when numerically equal row by
row. -/
def colEquals (c1 c2 : Col) : Bool :=
  c1.dtype = c2.dtype && c1.vals = c2.vals

/-- The pair scan of step 6: for every `i < j`, when neither column is
marked yet and they compare equal, mark the later column's name.  Returns
the accumulated `cols_to_drop` name list. -/
def scanPairs (dropped : List String) : List Col → List String
  | [] => dropped
  | c :: rest =>
    let dropped2 := rest.foldl
      (fun d c2 =>
        if c.name ∉ d ∧ c2.name ∉ d ∧ colEquals c c2 then d ++ [c2.name] else d)
      dropped
    scanPairs dropped2 rest

/-- Step 6: drop every column whose name was marked by the pair scan
(`self.df.drop(columns=cols_to_drop)`). -/
def dropDupCols (t : Table) : Table :=
  let dropped := scanPairs [] t
  t.filter (fun c => c.name ∉ dropped)

/-! ### The assembled pipeline (`clean_data`) -/

/-- Steps 1–4 of `clean_data` (everything before the duplicate-column
removal; steps 5, 7 and 8 of the source only log and never mutate the
table).  `text_cols` is captured right after the missing-value fill, as in
the source, and reused by the fuzzy pass. -/
def preDrop (sim : String → String → Nat) (dparse : Value → Option String)
    (t : Table) : Table :=
  let t1 := rowDedup t
  let t2 := fillMissing t1
  let textNames := (t2.filter (fun c => c.dtype = .obj)).map (·.name)
  let t3a := t2.map (textLowerCol textNames)
  let t3b := t3a.map (dateStdCol dparse)
  let t3c := t3b.map roundFloatsCol
  fuzzyFix sim textNames t3c

/-- The table transformation performed by `clean_data`: steps 1–4 followed
by duplicate-column removal.  Parameterised by the external similarity
scorer and date parser. -/
def cleanData (sim : String → String → Nat) (dparse : Value → Option String)
    (t : Table) : Table :=
  dropDupCols (preDrop sim dparse t)

/-- Count of sentinel cells in a cell vector, as the final consistency
check computes it (`(self.df == "null").sum()`). -/
def nullCountVals (vals : List Value) : Nat :=
  vals.countP (· = .vStr NULL_MARKER)

/-! ### Column name standardization (`standardize_column_names`) -/

/-- Python's whitespace on the ASCII range: the characters `str.isspace`
accepts below 128 — `\t`, `\n`, `\v`, `\f`, `\x0d` (9–13), the separator
controls 28–31, and the space 32.  This is the character set both of
`str.strip()` and of `\s` in `re` for ASCII text. -/
def pyIsSpace (c : Char) : Bool :=
  decide ((9 ≤ c.toNat ∧ c.toNat ≤ 13) ∨ (28 ≤ c.toNat ∧ c.toNat ≤ 31) ∨
    c.toNat = 32)

/-- `str.strip()` as the column-name canonicalization sees it: drop leading
and trailing Python whitespace. -/
def stripChars (cs : List Char) : List Char :=
  ((cs.dropWhile pyIsSpace).reverse.dropWhile pyIsSpace).reverse

/-- `re.sub(r'\s+', '_', ...)`: collapse every maximal whitespace run to a
single underscore.  The flag records whether the previous character was
whitespace. -/
def collapseWS (prevWS : Bool) : List Char → List Char
  | [] => []
  | c :: cs =>
    if pyIsSpace c then
      if prevWS then collapseWS true cs else '_' :: collapseWS true cs
    else c :: collapseWS false cs

/-- A word character of `re.sub(r'[^\w\d_]', '', ...)` in the ASCII range:
alphanumeric or underscore.  Python's `\w` additionally matches non-ASCII
word characters, which this model does not cover, so the column-naming
facts proved below are stated for ASCII raw names only. -/
def isWordChar (c : Char) : Bool := c.isAlphanum || c = '_'

/-- The canonicalization applied to one raw column name:
`col.lower().strip()`, whitespace runs to `_`, then strip non-word
characters.  Faithful to the source for ASCII names; Python's Unicode-aware
`lower`, `strip` and `\w` diverge from it outside ASCII. -/
def canonName (s : String) : String :=
  ⟨((collapseWS false (stripChars (s.data.map pyLowerChar)))).filter isWordChar⟩

/-- Decimal rendering of a counter, little-endian digit accumulator
(the integer formatting of `f"{new_col}_{seen[new_col]}"`). -/
def digitChr : Nat → Char
  | 0 => '0' | 1 => '1' | 2 => '2' | 3 => '3' | 4 => '4'
  | 5 => '5' | 6 => '6' | 7 => '7' | 8 => '8' | _ => '9'

/-- The decimal digits of `n`, most significant first. -/
def natChars (n : Nat) : List Char :=
  if _h : n < 10 then [digitChr n]
  else natChars (n / 10) ++ [digitChr (n % 10)]
  decreasing_by exact Nat.div_lt_self (by omega) (by omega)

/-- Decimal string of a counter value. -/
def natStr (n : Nat) : String := ⟨natChars n⟩

/-- Ordered-dict upsert keyed by raw column name (`rename_dict[col] =
new_col` inside `for col in self.df.columns`). -/
def upsertDict (d : List (String × String)) (k v : String) :
    List (String × String) :=
  if d.any (·.1 = k) then d.map (fun p => if p.1 = k then (k, v) else p)
  else d ++ [(k, v)]

/-- First pass of `standardize_column_names`: build `rename_dict` mapping
each raw name to its canonical form (later duplicates of the same raw name
overwrite the same entry). -/
def buildRenameDict (raws : List String) : List (String × String) :=
  raws.foldl (fun d r => upsertDict d r (canonName r)) []

/-- Second pass: walk the dict entries in insertion order; a canonical name
already seen `k` times becomes `name_k` and bumps the counter, otherwise it
is kept and the counter starts at 1. -/
def resolveCollisions (seen : List (String × Nat)) :
    List (String × String) → List (String × String)
  | [] => []
  | (old, new) :: rest =>
    match seen.lookup new with
    | some k =>
      (old, new ++ "_" ++ natStr k) ::
        resolveCollisions (seen.map (fun p => if p.1 = new then (new, k + 1) else p)) rest
    | none => (old, new) :: resolveCollisions (seen ++ [(new, 1)]) rest

/-- The full renaming map of `standardize_column_names`. -/
def renameDict (raws : List String) : List (String × String) :=
  resolveCollisions [] (buildRenameDict raws)

/-- `self.df.rename(columns=rename_dict)`: each raw name is looked up in the
final dict (a name not present — impossible here — would stay). -/
def standardizeColumnNames (raws : List String) : List String :=
  raws.map (fun r => ((renameDict raws).lookup r).getD r)

/-! ### Object identity (`__init__` copying the caller's DataFrame) -/

/-- A fragment of the Python heap: finitely many `DataFrame` objects
addressed by references, plus the next fresh address. -/
structure PyHeap where
  store : Nat → Table
  next  : Nat

/-- Write a table at an address. -/
def PyHeap.write (h : PyHeap) (r : Nat) (t : Table) : PyHeap :=
  ⟨fun j => if j = r then t else h.store j, h.next⟩

/-- `FDCleaner.__init__(df=...)`: `self.df = df.copy()` allocates a fresh
object holding a copy of the caller's table and stores its reference in the
cleaner.  Returns the updated heap and the reference held by `self.df`. -/
def fdInit (h : PyHeap) (callerRef : Nat) : PyHeap × Nat :=
  (⟨fun j => if j = h.next then h.store callerRef else h.store j, h.next + 1⟩,
   h.next)

/-- `clean_data`: every pass mutates `self.df` in place, i.e. rewrites the
object behind the cleaner's own reference. -/
def fdCleanData (sim : String → String → Nat) (dparse : Value → Option String)
    (h : PyHeap) (selfRef : Nat) : PyHeap :=
  h.write selfRef (cleanData sim dparse (h.store selfRef))

/-! ### Concrete instances used by the claim theorems -/

/-- A trivial similarity scorer (no pair reaches the cutoff). -/
def zeroSim : String → String → Nat := fun _ _ => 0

/-- A date parser that recognizes nothing. -/
def noParse : Value → Option String := fun _ => none

/-- A symmetric, reflexive, bounded similarity scorer for which `"cc"` is
close to both `"aa"` and `"bb"`, while `"aa"` and `"bb"` are far apart. -/
def chainSim : String → String → Nat := fun a b =>
  if a = b then 100
  else if (a = "aa" ∧ b = "cc") ∨ (a = "cc" ∧ b = "aa") ∨
          (a = "bb" ∧ b = "cc") ∨ (a = "cc" ∧ b = "bb") then 90
  else 0

/-- A city-style column: `"aa"` three times, `"bb"` twice, `"cc"` once. -/
def cityCol : Col :=
  ⟨"city", .obj, [.vStr "aa", .vStr "aa", .vStr "aa", .vStr "bb", .vStr "bb", .vStr "cc"]⟩

/-- A similarity scorer whose only close pair is `"v0"`/`"v1"`. -/
def pairSim : String → String → Nat := fun a b =>
  if a = b then 100
  else if (a = "v0" ∧ b = "v1") ∨ (a = "v1" ∧ b = "v0") then 90 else 0

/-- A text column with 49 distinct non-sentinel values plus one sentinel
cell: 50 distinct values in total. -/
def wideCatCol : Col :=
  ⟨"cat", .obj,
    ((List.range 49).map (fun i => .vStr ("v" ++ natStr i))) ++ [.vStr "null"]⟩

/-- A date parser recognizing exactly the string `"jan 1 2020"`. -/
def janParse : Value → Option String := fun v =>
  if v = .vStr "jan 1 2020" then some "2020-01-01" else none

/-- A date column that is one parseable value and four sentinel cells. -/
def sparseDateCol : Col :=
  ⟨"start_date", .obj,
    [.vStr "jan 1 2020", .vStr "null", .vStr "null", .vStr "null", .vStr "null"]⟩

/-- A character of the canonical identifier alphabet `[a-z0-9_]`. -/
def isIdentChar (c : Char) : Bool := c.isLower || c.isDigit || c = '_'

/-- Does the name end in an underscore followed by one or more digits? -/
def hasUDigitSuffix (s : String) : Bool :=
  let r := s.data.reverse
  let ds := r.takeWhile (·.isDigit)
  decide (ds ≠ []) &&
    (match r.drop ds.length with
     | '_' :: _ => true
     | _ => false)

/-- The name assigned to canonical `base` when the canonical names `prior`
have already been processed: the base itself on first occurrence, else the
base with the running occurrence count appended. -/
def assignName (prior : List String) (base : String) : String :=
  if prior.count base = 0 then base else base ++ "_" ++ natStr (prior.count base)

/-- The output names of the collision pass: each canonical name receives
`assignName` of the canonical names before it. -/
def outNames (cs0 : List String) : List String → List String
  | [] => []
  | c :: rest => assignName cs0 c :: outNames (cs0 ++ [c]) rest

/-- The collision pass on dict entries, in closed form. -/
def pairAssign (cs0 : List String) : List (String × String) → List (String × String)
  | [] => []
  | (old, new) :: rest => (old, assignName cs0 new) :: pairAssign (cs0 ++ [new]) rest

/-- A one-cell date column whose single value parses. -/
def janCol : Col := ⟨"d_date", .obj, [.vStr "jan 1 2020"]⟩

/-! ### Claim theorems -/

/-- C1, counterexample.  Claim: within a processed column, every
non-canonical member of a match set is mapped to that set's canonical
representative.  In `cityCol` under `chainSim`, the seed `"aa"` produces the
match set `["aa", "cc"]` whose canonical (most frequent member) is `"aa"`;
yet the pipeline's final rewrite sends the member `"cc"` to `"bb"`, because
the later seed `"bb"` also matches `"cc"` and overwrites the `changes`
entry (the dict write `changes[match_val] = standard` is last-write-wins).
So the cell that held `"cc"` ends as `"bb"`, not `"aa"`. -/
theorem C1_counterexample :
    extractBests chainSim "aa" (uniqueStrs cityCol) = ["aa", "cc"] ∧
    pickStandard (freqIn cityCol.vals) ["aa", "cc"] = "aa" ∧
    fuzzyFixCol chainSim cityCol
      = ⟨"city", .obj,
          [.vStr "aa", .vStr "aa", .vStr "aa", .vStr "bb", .vStr "bb", .vStr "bb"]⟩ ∧
    (fuzzyFixCol chainSim cityCol).vals.getD 5 .vNA ≠ .vStr "aa" := by
  with_unfolding_all decide


/-- `pickStandard` returns the first element of maximal frequency: the
match list splits around the result, with strictly smaller frequencies
before it and no larger frequency after it. -/
theorem pickStandard_split (freq : String → Nat) :
    ∀ (rest : List String) (s : String),
      ∃ l1 l2,
        s :: rest = l1 ++ pickStandard freq (s :: rest) :: l2 ∧
        (∀ x ∈ l1, freq x < freq (pickStandard freq (s :: rest))) ∧
        (∀ x ∈ l2, freq x ≤ freq (pickStandard freq (s :: rest))) := by
  intro rest
  induction rest with
  | nil =>
    intro s
    exact ⟨[], [], rfl, by simp, by simp⟩
  | cons r rs ih =>
    intro s
    by_cases h : freq s < freq r
    · have hstep : pickStandard freq (s :: r :: rs) = pickStandard freq (r :: rs) := by
        simp only [pickStandard, List.foldl_cons]
        rw [if_pos h]
      rw [hstep]
      obtain ⟨l1, l2, heq, h1, h2⟩ := ih r
      cases l1 with
      | nil =>
        obtain ⟨hr, hrs⟩ := List.cons.inj heq
        refine ⟨[s], l2, ?_, ?_, h2⟩
        · show s :: r :: rs = s :: pickStandard freq (r :: rs) :: l2
          rw [← hr, ← hrs]
        · intro x hx
          rcases List.mem_singleton.mp hx with rfl
          rw [← hr]
          exact h
      | cons a l1t =>
        obtain ⟨ha, htail⟩ := List.cons.inj heq
        subst ha
        refine ⟨s :: r :: l1t, l2, ?_, ?_, h2⟩
        · exact congrArg (fun t => s :: r :: t) htail
        · intro x hx
          rcases List.mem_cons.mp hx with rfl | hx
          · exact Nat.lt_trans h (h1 r (List.mem_cons_self r l1t))
          · rcases List.mem_cons.mp hx with rfl | hx
            · exact h1 x (List.mem_cons_self x l1t)
            · exact h1 x (List.mem_cons_of_mem _ hx)
    · have hstep : pickStandard freq (s :: r :: rs) = pickStandard freq (s :: rs) := by
        simp only [pickStandard, List.foldl_cons]
        rw [if_neg h]
      rw [hstep]
      obtain ⟨l1, l2, heq, h1, h2⟩ := ih s
      cases l1 with
      | nil =>
        obtain ⟨hs, hrs⟩ := List.cons.inj heq
        refine ⟨[], r :: rs, ?_, by simp, ?_⟩
        · show s :: r :: rs = pickStandard freq (s :: rs) :: r :: rs
          rw [← hs]
        · intro x hx
          rcases List.mem_cons.mp hx with rfl | hx
          · rw [← hs]
            exact Nat.le_of_not_lt h
          · exact h2 x (hrs ▸ hx)
      | cons a l1t =>
        obtain ⟨ha, htail⟩ := List.cons.inj heq
        subst ha
        have hslt : freq s < freq (pickStandard freq (s :: rs)) :=
          h1 s (List.mem_cons_self s l1t)
        refine ⟨s :: r :: l1t, l2, ?_, ?_, h2⟩
        · exact congrArg (fun t => s :: r :: t) htail
        · intro x hx
          rcases List.mem_cons.mp hx with rfl | hx
          · exact hslt
          · rcases List.mem_cons.mp hx with rfl | hx
            · exact Nat.lt_of_le_of_lt (Nat.le_of_not_lt h) hslt
            · exact h1 x (List.mem_cons_of_mem _ hx)

/-- C1, amended: the canonical representative chosen for a match set is its
first member of maximal row-frequency — `pickStandard` (the embedding of
`counts.loc[similar].idxmax()`) splits the match list as `l1 ++ std :: l2`
where every member before `std` has strictly smaller frequency and every
member after it has frequency at most that of `std`.  (Each other member is
mapped to this canonical at the time the set is processed; a member shared
with a later seed's match set is remapped to the later canonical, as the
counterexample shows.) -/
theorem C1_amended (freq : String → Nat) (l : List String) (h : l ≠ []) :
    ∃ l1 l2, l = l1 ++ pickStandard freq l :: l2 ∧
      (∀ x ∈ l1, freq x < freq (pickStandard freq l)) ∧
      (∀ x ∈ l2, freq x ≤ freq (pickStandard freq l)) := by
  cases l with
  | nil => exact absurd rfl h
  | cons s rest => exact pickStandard_split freq rest s

/-- Witness for `C1_amended` at a concrete match list. -/
theorem C1_amended_witness :
    ∃ l1 l2, (["aa", "cc"] : List String) = l1 ++ pickStandard (freqIn cityCol.vals) ["aa", "cc"] :: l2 ∧
      (∀ x ∈ l1, freqIn cityCol.vals x < freqIn cityCol.vals (pickStandard (freqIn cityCol.vals) ["aa", "cc"])) ∧
      (∀ x ∈ l2, freqIn cityCol.vals x ≤ freqIn cityCol.vals (pickStandard (freqIn cityCol.vals) ["aa", "cc"])) :=
  C1_amended (freqIn cityCol.vals) ["aa", "cc"] (by decide)

set_option maxRecDepth 100000 in
set_option maxHeartbeats 1000000 in
/-- C2, counterexample.  Claim: the consolidation pass runs on exactly the
text columns with more than 1 and fewer than 50 distinct *non-sentinel*
values.  `wideCatCol` has 49 distinct non-sentinel values (inside the
claimed band) but 50 distinct values in total because the sentinel is
present, and the source gates on `nunique()` — which counts the sentinel —
so the column is skipped and no value is rewritten, although running the
consolidation body on it would rewrite `"v1"` to `"v0"`. -/
theorem C2_counterexample :
    fuzzyFix pairSim ["cat"] [wideCatCol] = [wideCatCol] ∧
    1 < (uniqueStrs wideCatCol).length ∧ (uniqueStrs wideCatCol).length < 50 ∧
    fuzzyFixCol pairSim wideCatCol ≠ wideCatCol := by
  with_unfolding_all decide

/-- C3, counterexample.  Claim: a date-candidate column is rewritten iff
the parse rate over its *non-sentinel* values exceeds 80%.  In
`sparseDateCol` (name contains `"date"`) the single non-sentinel value
parses, so the claimed rate is 100% > 80%, and rewriting would change that
cell to `"2020-01-01"`; but the source computes `temp_col.notna().mean()`
over all five rows (rate 20%), so the column is left unchanged. -/
theorem C3_counterexample :
    dateStdCol janParse sparseDateCol = sparseDateCol ∧
    (let ns := sparseDateCol.vals.filter (· ≠ .vStr NULL_MARKER)
     5 * ns.countP (fun v => (janParse v).isSome) > 4 * ns.length) ∧
    janParse (.vStr "jan 1 2020") = some "2020-01-01" ∧
    janParse (.vStr NULL_MARKER) = none ∧
    (.vStr "2020-01-01" : Value) ≠ .vStr "jan 1 2020" := by
  with_unfolding_all decide

/-- C4, counterexample.  Claim: the numeric column `[1.005, 2.0, None]`
comes out as `[1.0, 2.0, "null"]`, with every floating-point column's
non-sentinel values rounded to 2 decimals.  In the source the missing value
is filled *before* the rounding pass, which converts the column to dtype
`object`; the rounding pass selects only `float`-dtype columns, so the
column is never rounded and `1.005` survives unchanged. -/
theorem C4_counterexample :
    cleanData zeroSim noParse
        [⟨"amount", .float64, [.vFloat (201/200), .vFloat 2, .vNA]⟩]
      = [⟨"amount", .obj, [.vFloat (201/200), .vFloat 2, .vStr "null"]⟩] ∧
    [(.vFloat (201/200) : Value), .vFloat 2, .vStr "null"]
      ≠ [(.vFloat 1 : Value), .vFloat 2, .vStr "null"] := by
  with_unfolding_all decide

/-- C5, counterexample.  Claim: post-normalization column names are always
pairwise distinct.  For the raw names `["x", "x_1", "x "]` the third name
canonicalizes to `"x"`, colliding with the first; the disambiguation
appends `_1`, producing `"x_1"` — which collides with the second column's
untouched name, so the output names are not pairwise distinct. -/
theorem C5_counterexample :
    standardizeColumnNames ["x", "x_1", "x "] = ["x", "x_1", "x_1"] ∧
    ¬ (["x", "x_1", "x_1"] : List String).Nodup := by
  with_unfolding_all decide

/-- C6, counterexample.  Claim: a second pipeline run on the first run's
output removes no further rows.  The table with one text column
`["A", "a"]` has no duplicate rows, so the first run removes none, but its
lowercasing pass makes the two rows identical; the second run's
deduplication then removes one of them. -/
theorem C6_counterexample :
    cleanData zeroSim noParse [⟨"c", .obj, [.vStr "A", .vStr "a"]⟩]
      = [⟨"c", .obj, [.vStr "a", .vStr "a"]⟩] ∧
    cleanData zeroSim noParse (cleanData zeroSim noParse [⟨"c", .obj, [.vStr "A", .vStr "a"]⟩])
      = [⟨"c", .obj, [.vStr "a"]⟩] := by
  with_unfolding_all decide

/-- C7, counterexample.  Claim: every input column that is not element-wise
identical to an earlier input column is present in the output.  The two
columns `["A"]` and `["a"]` differ in the input, but the lowercasing pass
makes them identical before the duplicate-column scan, so the second is
removed. -/
theorem C7_counterexample :
    cleanData zeroSim noParse [⟨"a", .obj, [.vStr "A"]⟩, ⟨"b", .obj, [.vStr "a"]⟩]
      = [⟨"a", .obj, [.vStr "a"]⟩] ∧
    (⟨"a", .obj, [.vStr "A"]⟩ : Col).vals ≠ (⟨"b", .obj, [.vStr "a"]⟩ : Col).vals := by
  with_unfolding_all decide

/-- C2, amended: the consolidation pass runs on exactly those text columns
(members of the `text_cols` snapshot) whose total number of distinct values
— counted by `nunique()`, which includes the sentinel when present — lies
strictly between 1 and 50 and which retain at least two distinct
non-sentinel string values; any other column is returned unchanged by this
pass. -/
theorem C2_amended (sim : String → String → Nat) (tn : List String) (c : Col) :
    (fuzzyStep sim tn c ≠ c →
      c.name ∈ tn ∧ 1 < nuniqueCol c ∧ nuniqueCol c < 50 ∧ 1 < (uniqueStrs c).length) ∧
    (¬ (c.name ∈ tn ∧ 1 < nuniqueCol c ∧ nuniqueCol c < 50) → fuzzyStep sim tn c = c) := by
  constructor
  · intro hne
    by_cases hg : c.name ∈ tn ∧ 1 < nuniqueCol c ∧ nuniqueCol c < 50
    · refine ⟨hg.1, hg.2.1, hg.2.2, ?_⟩
      by_cases hlen : (uniqueStrs c).length ≤ 1
      · exact absurd (by simp [fuzzyStep, if_pos hg, fuzzyFixCol, hlen]) hne
      · omega
    · exact absurd (by simp [fuzzyStep, if_neg hg]) hne
  · intro hg
    simp [fuzzyStep, if_neg hg]

/-- Witness for `C2_amended`: the `cityCol` column (three distinct values,
in the band) is rewritten by the pass, so the gate conditions hold for
it. -/
theorem C2_amended_witness :
    "city" ∈ ["city"] ∧ 1 < nuniqueCol cityCol ∧ nuniqueCol cityCol < 50 ∧
      1 < (uniqueStrs cityCol).length :=
  (C2_amended chainSim ["city"] cityCol).1 (by with_unfolding_all decide)

/-- C8: constructing the cleaner from an in-memory DataFrame copies it
(`self.df = df.copy()`), so the caller's object is untouched by the
cleaning run, while the cleaner's own object ends up holding the cleaned
table. -/
theorem C8_caller_df_unchanged (sim : String → String → Nat)
    (dparse : Value → Option String) (h : PyHeap) (r : Nat) (hr : r < h.next) :
    (fdCleanData sim dparse (fdInit h r).1 (fdInit h r).2).store r = h.store r ∧
    (fdCleanData sim dparse (fdInit h r).1 (fdInit h r).2).store (fdInit h r).2
      = cleanData sim dparse (h.store r) := by
  have hne : r ≠ h.next := Nat.ne_of_lt hr
  constructor
  · simp [fdCleanData, fdInit, PyHeap.write, hne]
  · simp [fdCleanData, fdInit, PyHeap.write]

/-- Witness for `C8_caller_df_unchanged` on a one-object heap holding an
empty table. -/
theorem C8_caller_df_unchanged_witness :
    (fdCleanData zeroSim noParse (fdInit ⟨fun _ => [], 1⟩ 0).1 (fdInit ⟨fun _ => [], 1⟩ 0).2).store 0
      = (⟨fun _ => [], 1⟩ : PyHeap).store 0 ∧
    (fdCleanData zeroSim noParse (fdInit ⟨fun _ => [], 1⟩ 0).1 (fdInit ⟨fun _ => [], 1⟩ 0).2).store
        (fdInit ⟨fun _ => [], 1⟩ 0).2
      = cleanData zeroSim noParse ((⟨fun _ => [], 1⟩ : PyHeap).store 0) :=
  C8_caller_df_unchanged zeroSim noParse ⟨fun _ => [], 1⟩ 0 (by decide)

/-- C10: duplicate-column detection uses `Series.equals`, which is
dtype-sensitive: columns of different storage dtypes never compare equal,
so an integer-typed and a float-typed column with numerically equal values
are not detected as redundant, and in the concrete two-column table both
columns survive the pipeline. -/
theorem C10_dtype_sensitive_dup_detection (c1 c2 : Col) (h : c1.dtype ≠ c2.dtype) :
    colEquals c1 c2 = false ∧
    cleanData zeroSim noParse
        [⟨"a", .int64, [.vInt 1, .vInt 2]⟩, ⟨"b", .float64, [.vFloat 1, .vFloat 2]⟩]
      = [⟨"a", .int64, [.vInt 1, .vInt 2]⟩, ⟨"b", .float64, [.vFloat 1, .vFloat 2]⟩] := by
  constructor
  · simp [colEquals, h]
  · with_unfolding_all decide

/-- Witness for `C10_dtype_sensitive_dup_detection` at two single-cell
columns of different dtypes. -/
theorem C10_dtype_sensitive_dup_detection_witness :
    colEquals ⟨"a", .int64, [.vInt 1]⟩ ⟨"b", .float64, [.vFloat 1]⟩ = false ∧
    cleanData zeroSim noParse
        [⟨"a", .int64, [.vInt 1, .vInt 2]⟩, ⟨"b", .float64, [.vFloat 1, .vFloat 2]⟩]
      = [⟨"a", .int64, [.vInt 1, .vInt 2]⟩, ⟨"b", .float64, [.vFloat 1, .vFloat 2]⟩] :=
  C10_dtype_sensitive_dup_detection ⟨"a", .int64, [.vInt 1]⟩ ⟨"b", .float64, [.vFloat 1]⟩
    (by decide)

/-- A lookup misses when no key of the association list equals the probed
key. -/
theorem lookup_none_of_keys {β : Type} (key : String) :
    ∀ (l : List (String × β)), (∀ p ∈ l, p.1 ≠ key) → l.lookup key = none := by
  intro l
  induction l with
  | nil => intro; rfl
  | cons p rest ih =>
    intro hk
    have hne : (key == p.1) = false := by
      simp only [beq_eq_false_iff_ne, ne_eq]
      exact fun he => hk p (List.mem_cons_self p rest) he.symm
    simp only [List.lookup, hne]
    exact ih fun q hq => hk q (List.mem_cons_of_mem p hq)

/-- `updateAssoc` preserves a predicate on keys, provided the inserted key
satisfies it. -/
theorem updateAssoc_keys (P : String → Prop) (m : List (String × String))
    (k v : String) (hm : ∀ p ∈ m, P p.1) (hk : P k) :
    ∀ p ∈ updateAssoc m k v, P p.1 := by
  intro p hp
  unfold updateAssoc at hp
  split at hp
  · rcases List.mem_map.mp hp with ⟨q, hq, hpq⟩
    by_cases hqk : q.1 = k
    · simp only [if_pos hqk] at hpq
      rw [← hpq]
      exact hk
    · simp only [if_neg hqk] at hpq
      rw [← hpq]
      exact hm q hq
  · rcases List.mem_append.mp hp with hq | hq
    · exact hm p hq
    · rcases List.mem_singleton.mp hq with rfl
      exact hk

/-- Every key of the changes map accumulated by the seed loop is one of the
column's distinct non-sentinel string values. -/
theorem fuzzyLoop_keys (sim : String → String → Nat) (freq : String → Nat)
    (uniq : List String) :
    ∀ p ∈ (fuzzyLoop sim freq uniq).2, p.1 ∈ uniq := by
  have hinner :
      ∀ (ms : List String) (ch : List (String × String)) (std : String),
        (∀ p ∈ ch, p.1 ∈ uniq) → (∀ m ∈ ms, m ∈ uniq) →
        ∀ p ∈ ms.foldl
            (fun ch m => if m ≠ std then updateAssoc ch m std else ch) ch,
          p.1 ∈ uniq := by
    intro ms
    induction ms with
    | nil => intro ch std hch _ p hp; exact hch p hp
    | cons m ms ih =>
      intro ch std hch hms p hp
      simp only [List.foldl_cons] at hp
      refine ih _ std ?_ (fun x hx => hms x (List.mem_cons_of_mem m hx)) p hp
      by_cases hm : m ≠ std
      · rw [if_pos hm]
        exact updateAssoc_keys _ ch m std hch (hms m (List.mem_cons_self m ms))
      · rw [if_neg hm]
        exact hch
  have hmain :
      ∀ (l : List String) (st : List String × List (String × String)),
        (∀ p ∈ st.2, p.1 ∈ uniq) →
        ∀ p ∈ (l.foldl
            (fun st v =>
              let processed := st.1
              let changes := st.2
              if v ∈ processed then st
              else
                let ms := extractBests sim v uniq
                if 1 < ms.length then
                  let standard := pickStandard freq ms
                  let changes2 := ms.foldl
                    (fun ch m => if m ≠ standard then updateAssoc ch m standard else ch)
                    changes
                  (processed ++ ms.filter (· ≠ standard) ++ [standard], changes2)
                else st) st).2, p.1 ∈ uniq := by
    intro l
    induction l with
    | nil => intro st hst p hp; exact hst p hp
    | cons v vs ih =>
      intro st hst p hp
      simp only [List.foldl_cons] at hp
      refine ih _ ?_ p hp
      by_cases hv : v ∈ st.1
      · simpa [if_pos hv] using hst
      · rw [if_neg hv]
        by_cases hlen : 1 < (extractBests sim v uniq).length
        · rw [if_pos hlen]
          refine hinner _ st.2 _ hst ?_
          intro m hm
          exact List.mem_of_mem_filter hm
        · simpa [if_neg hlen] using hst
  intro p hp
  exact hmain uniq ([], []) (by intro q hq; cases hq) p hp

/-- The sentinel never appears among a column's distinct non-sentinel
string values. -/
theorem null_notin_uniqueStrs (c : Col) : NULL_MARKER ∉ uniqueStrs c := by
  intro hmem
  rcases List.mem_filterMap.mp hmem with ⟨v, _, heq⟩
  cases v with
  | vStr s0 =>
    dsimp only at heq
    by_cases h0 : s0 = NULL_MARKER
    · rw [if_pos h0] at heq
      exact Option.noConfusion heq
    · rw [if_neg h0] at heq
      exact h0 (Option.some.inj heq)
  | vInt n => simp at heq
  | vFloat q => simp at heq
  | vNA => simp at heq

/-- A map over a cell vector whose function fixes the sentinel leaves
sentinel positions sentinel. -/
theorem getD_map_null_fix (g : Value → Value)
    (hg : g (.vStr NULL_MARKER) = .vStr NULL_MARKER) :
    ∀ (l : List Value) (i : Nat), l.getD i .vNA = .vStr NULL_MARKER →
      (l.map g).getD i .vNA = .vStr NULL_MARKER := by
  intro l
  induction l with
  | nil => intro i h; simp [List.getD] at h
  | cons a t ih =>
    intro i h
    cases i with
    | zero =>
      simp only [List.getD_cons_zero] at h
      simp only [List.map_cons, List.getD_cons_zero, h, hg]
    | succ i =>
      simp only [List.getD_cons_succ] at h
      simp only [List.map_cons, List.getD_cons_succ]
      exact ih i h

/-- C9: the sentinel is indistinguishable from genuine data equal to it.
After the text pass any string whose lowercased and trimmed form is
`"null"` becomes the sentinel itself; the final consistency count counts
such cells as placeholders; the fuzzy pass excludes the sentinel from its
candidate values and never rewrites a sentinel cell. -/
theorem C9_sentinel_collapse (s : String) (hs : pyStrip (pyLower s) = NULL_MARKER)
    (vs : List Value) (hmem : Value.vStr s ∈ vs) :
    lowerTrimVal (.vStr s) = .vStr NULL_MARKER ∧
    Value.vStr NULL_MARKER ∈ vs.map lowerTrimVal ∧
    1 ≤ nullCountVals (vs.map lowerTrimVal) ∧
    (∀ c : Col, NULL_MARKER ∉ uniqueStrs c) ∧
    (∀ (sim : String → String → Nat) (c : Col) (i : Nat),
      c.vals.getD i .vNA = .vStr NULL_MARKER →
      (fuzzyFixCol sim c).vals.getD i .vNA = .vStr NULL_MARKER) := by
  have h1 : lowerTrimVal (.vStr s) = .vStr NULL_MARKER := by
    by_cases h0 : s = NULL_MARKER
    · simp [lowerTrimVal, h0]
    · simp [lowerTrimVal, h0, hs]
  have h2 : Value.vStr NULL_MARKER ∈ vs.map lowerTrimVal :=
    h1 ▸ List.mem_map_of_mem lowerTrimVal hmem
  refine ⟨h1, h2, ?_, fun c => null_notin_uniqueStrs c, ?_⟩
  · have := List.countP_pos_iff (p := fun v => decide (v = Value.vStr NULL_MARKER))
      (l := vs.map lowerTrimVal)
    exact this.mpr ⟨_, h2, by simp⟩
  · intro sim c i hcell
    unfold fuzzyFixCol
    by_cases hlen : (uniqueStrs c).length ≤ 1
    · rw [if_pos hlen]
      exact hcell
    · rw [if_neg hlen]
      by_cases hch : (fuzzyLoop sim (freqIn c.vals) (uniqueStrs c)).2 = []
      · rw [if_pos hch]
        exact hcell
      · rw [if_neg hch]
        simp only
        unfold applyChanges
        refine getD_map_null_fix _ ?_ c.vals i hcell
        have hkeys := fuzzyLoop_keys sim (freqIn c.vals) (uniqueStrs c)
        have hnone :
            ((fuzzyLoop sim (freqIn c.vals) (uniqueStrs c)).2).lookup NULL_MARKER = none := by
          refine lookup_none_of_keys NULL_MARKER _ ?_
          intro p hp he
          exact null_notin_uniqueStrs c (he ▸ hkeys p hp)
        simp [hnone]

/-- Witness for `C9_sentinel_collapse` at the raw string `" NULL "`. -/
theorem C9_sentinel_collapse_witness :
    lowerTrimVal (.vStr " NULL ") = .vStr NULL_MARKER ∧
    Value.vStr NULL_MARKER ∈ [Value.vStr " NULL "].map lowerTrimVal ∧
    1 ≤ nullCountVals ([Value.vStr " NULL "].map lowerTrimVal) ∧
    (∀ c : Col, NULL_MARKER ∉ uniqueStrs c) ∧
    (∀ (sim : String → String → Nat) (c : Col) (i : Nat),
      c.vals.getD i .vNA = .vStr NULL_MARKER →
      (fuzzyFixCol sim c).vals.getD i .vNA = .vStr NULL_MARKER) :=
  C9_sentinel_collapse " NULL " (by decide) [Value.vStr " NULL "] (by decide)

/-- Indexing a `zipWith` of a list with a map of itself evaluates the
combining function at the indexed cell. -/
theorem getD_zipWith_self_map (f : Value → Option String → Value)
    (g : Value → Option String) :
    ∀ (l : List Value) (i : Nat), i < l.length →
      (List.zipWith f l (l.map g)).getD i .vNA = f (l.getD i .vNA) (g (l.getD i .vNA)) := by
  intro l
  induction l with
  | nil => intro i hi; exact absurd hi (by simp)
  | cons a t ih =>
    intro i hi
    cases i with
    | zero => simp
    | succ i =>
      simp only [List.map_cons, List.zipWith_cons_cons, List.getD_cons_succ]
      exact ih i (by simpa using hi)

/-- C3, amended: for every date-candidate column (canonical name containing
`"date"`, `"time"` or `"_at"` — this includes every name ending in `"_at"`),
the date pass rewrites the column if and only if the fraction of
successfully parsed cells computed over **all** cells of the column
(sentinel cells count in the denominator and never parse) exceeds 80%; when
it rewrites, every parseable cell is replaced by its ISO rendering and every
unparseable cell — the sentinel included — is left untouched; below the
threshold the column is left entirely unmodified. -/
theorem C3_amended (dparse : Value → Option String) (c : Col)
    (hc : isDateCandidate c.name = true)
    (hnull : dparse (.vStr NULL_MARKER) = none) :
    (5 * (c.vals.map dparse).countP (·.isSome) > 4 * c.vals.length →
      ∀ i, i < c.vals.length →
        (dateStdCol dparse c).vals.getD i .vNA
          = match dparse (c.vals.getD i .vNA) with
            | some str => .vStr str
            | none => c.vals.getD i .vNA) ∧
    (¬ (5 * (c.vals.map dparse).countP (·.isSome) > 4 * c.vals.length) →
      dateStdCol dparse c = c) ∧
    (∀ i, c.vals.getD i .vNA = .vStr NULL_MARKER →
      (dateStdCol dparse c).vals.getD i .vNA = .vStr NULL_MARKER) := by
  have hd : dateStdCol dparse c
      = if 5 * (c.vals.map dparse).countP (·.isSome) > 4 * c.vals.length then
          (⟨c.name, .obj,
            c.vals.zipWith (fun v p => match p with | some str => .vStr str | none => v)
              (c.vals.map dparse)⟩ : Col)
        else c := by
    simp [dateStdCol, hc]
  have h1 : 5 * (c.vals.map dparse).countP (·.isSome) > 4 * c.vals.length →
      ∀ i, i < c.vals.length →
        (dateStdCol dparse c).vals.getD i .vNA
          = match dparse (c.vals.getD i .vNA) with
            | some str => .vStr str
            | none => c.vals.getD i .vNA := by
    intro hthr i hi
    rw [hd, if_pos hthr]
    exact getD_zipWith_self_map _ dparse c.vals i hi
  refine ⟨h1, ?_, ?_⟩
  · intro hthr
    rw [hd, if_neg hthr]
  · intro i hcell
    by_cases hthr : 5 * (c.vals.map dparse).countP (·.isSome) > 4 * c.vals.length
    · by_cases hi : i < c.vals.length
      · rw [h1 hthr i hi, hcell, hnull]
      · have : c.vals.getD i .vNA = .vNA := List.getD_eq_default _ _ (Nat.le_of_not_lt hi)
        rw [this] at hcell
        exact Value.noConfusion hcell
    · rw [hd, if_neg hthr]
      exact hcell

/-- Witness for `C3_amended`: the one-cell column is above the threshold and
its cell is rewritten to ISO form. -/
theorem C3_amended_witness :
    (dateStdCol janParse janCol).vals.getD 0 .vNA
      = match janParse (janCol.vals.getD 0 .vNA) with
        | some str => .vStr str
        | none => janCol.vals.getD 0 .vNA :=
  (C3_amended janParse janCol (by decide) (by decide)).1 (by decide) 0 (by decide)

/-! ### Structural lemmas: the value passes keep names and lengths -/

/-- The missing-value fill keeps the column name. -/
theorem name_fillMissingCol (c : Col) : (fillMissingCol c).name = c.name := by
  unfold fillMissingCol
  split
  · split <;> rfl
  · rfl

/-- The missing-value fill keeps the column length. -/
theorem len_fillMissingCol (c : Col) : (fillMissingCol c).vals.length = c.vals.length := by
  unfold fillMissingCol
  split
  · split <;> simp
  · rfl

/-- The text pass keeps the column name. -/
theorem name_textLowerCol (tn : List String) (c : Col) :
    (textLowerCol tn c).name = c.name := by
  unfold textLowerCol
  split <;> rfl

/-- The text pass keeps the column length. -/
theorem len_textLowerCol (tn : List String) (c : Col) :
    (textLowerCol tn c).vals.length = c.vals.length := by
  unfold textLowerCol
  split <;> simp

/-- The date pass keeps the column name. -/
theorem name_dateStdCol (dparse : Value → Option String) (c : Col) :
    (dateStdCol dparse c).name = c.name := by
  unfold dateStdCol
  split
  · dsimp only
    split <;> rfl
  · rfl

/-- The date pass keeps the column length. -/
theorem len_dateStdCol (dparse : Value → Option String) (c : Col) :
    (dateStdCol dparse c).vals.length = c.vals.length := by
  unfold dateStdCol
  split
  · dsimp only
    split
    · simp
    · rfl
  · rfl

/-- The rounding pass keeps the column name. -/
theorem name_roundFloatsCol (c : Col) : (roundFloatsCol c).name = c.name := by
  unfold roundFloatsCol
  split <;> rfl

/-- The rounding pass keeps the column length. -/
theorem len_roundFloatsCol (c : Col) : (roundFloatsCol c).vals.length = c.vals.length := by
  unfold roundFloatsCol
  split <;> simp

/-- The fuzzy pass keeps the column name. -/
theorem name_fuzzyStep (sim : String → String → Nat) (tn : List String) (c : Col) :
    (fuzzyStep sim tn c).name = c.name := by
  unfold fuzzyStep fuzzyFixCol
  split
  · dsimp only
    split
    · rfl
    · split <;> rfl
  · rfl

/-- The fuzzy pass keeps the column length. -/
theorem len_fuzzyStep (sim : String → String → Nat) (tn : List String) (c : Col) :
    (fuzzyStep sim tn c).vals.length = c.vals.length := by
  unfold fuzzyStep fuzzyFixCol
  split
  · dsimp only
    split
    · rfl
    · split
      · rfl
      · simp [applyChanges]
  · rfl

/-- Row count of a mapped table, when the mapping keeps lengths. -/
theorem nRows_map (f : Col → Col) (hf : ∀ c, (f c).vals.length = c.vals.length)
    (t : Table) : nRows (t.map f) = nRows t := by
  cases t with
  | nil => rfl
  | cons c rest => exact hf c

/-- Names of a mapped table, when the mapping keeps names. -/
theorem names_map (f : Col → Col) (hf : ∀ c, (f c).name = c.name) (t : Table) :
    (t.map f).map (·.name) = t.map (·.name) := by
  rw [List.map_map]
  exact List.map_congr_left fun c _ => hf c

/-- Row deduplication keeps the column-name list. -/
theorem names_rowDedup (t : Table) : (rowDedup t).map (·.name) = t.map (·.name) := by
  unfold rowDedup
  exact names_map
    (fun c => { name := c.name, dtype := c.dtype,
                vals := maskList (firstOccFlags [] (rowsOf t)) c.vals })
    (fun c => rfl) t

/-- `preDrop` keeps the column-name list of its input. -/
theorem names_preDrop (sim : String → String → Nat) (dparse : Value → Option String)
    (t : Table) : (preDrop sim dparse t).map (·.name) = t.map (·.name) := by
  unfold preDrop fuzzyFix fillMissing
  rw [names_map _ (name_fuzzyStep sim _), names_map _ (name_roundFloatsCol),
    names_map _ (name_dateStdCol dparse), names_map _ (name_textLowerCol _),
    names_map _ name_fillMissingCol, names_rowDedup]

/-- `preDrop` has the row count of the deduplicated input. -/
theorem nRows_preDrop (sim : String → String → Nat) (dparse : Value → Option String)
    (t : Table) : nRows (preDrop sim dparse t) = nRows (rowDedup t) := by
  unfold preDrop fuzzyFix fillMissing
  rw [nRows_map _ (len_fuzzyStep sim _), nRows_map _ len_roundFloatsCol,
    nRows_map _ (len_dateStdCol dparse), nRows_map _ (len_textLowerCol _),
    nRows_map _ len_fillMissingCol]

/-- Names accumulated by the inner fold of the pair scan come from the
accumulator or from the scanned columns. -/
theorem foldl_mark_mem (c : Col) :
    ∀ (rest : List Col) (d : List String) (x : String),
      x ∈ rest.foldl
        (fun d c2 =>
          if c.name ∉ d ∧ c2.name ∉ d ∧ colEquals c c2 then d ++ [c2.name] else d) d →
      x ∈ d ∨ x ∈ rest.map (·.name) := by
  intro rest
  induction rest with
  | nil => intro d x hx; exact Or.inl hx
  | cons c2 rest ih =>
    intro d x hx
    simp only [List.foldl_cons] at hx
    rcases ih _ x hx with hd | hr
    · by_cases hcond : c.name ∉ d ∧ c2.name ∉ d ∧ colEquals c c2
      · rw [if_pos hcond] at hd
        rcases List.mem_append.mp hd with h1 | h1
        · exact Or.inl h1
        · exact Or.inr (by simp [List.mem_singleton.mp h1])
      · rw [if_neg hcond] at hd
        exact Or.inl hd
    · exact Or.inr (List.mem_cons_of_mem _ hr)

/-- Every name marked by the pair scan is the accumulator's or a
non-leading column's name. -/
theorem scanPairs_mem_tail :
    ∀ (l : List Col) (d : List String) (x : String),
      x ∈ scanPairs d l → x ∈ d ∨ x ∈ (l.map (·.name)).tail := by
  intro l
  induction l with
  | nil => intro d x hx; exact Or.inl hx
  | cons c rest ih =>
    intro d x hx
    unfold scanPairs at hx
    rcases ih _ x hx with hd | hr
    · rcases foldl_mark_mem c rest d x hd with h1 | h1
      · exact Or.inl h1
      · exact Or.inr (by simpa using h1)
    · refine Or.inr ?_
      simp only [List.map_cons, List.tail_cons]
      exact (List.tail_sublist _).subset hr

/-- Dropping duplicate columns keeps the leading column, hence the row
count, whenever the names are distinct. -/
theorem nRows_dropDupCols (t : Table) (h : (t.map (·.name)).Nodup) :
    nRows (dropDupCols t) = nRows t := by
  cases t with
  | nil => rfl
  | cons c rest =>
    have hnotin : c.name ∉ (((c :: rest).map (·.name)) : List String).tail := by
      intro hmem
      simp only [List.map_cons, List.tail_cons] at hmem
      exact (List.nodup_cons.mp h).1 hmem
    have hkeep : c.name ∉ scanPairs [] (c :: rest) := by
      intro hmem
      rcases scanPairs_mem_tail (c :: rest) [] c.name hmem with h1 | h1
      · cases h1
      · exact hnotin h1
    unfold dropDupCols
    simp only
    rw [List.filter_cons_of_pos (by simpa using hkeep)]
    rfl

/-- The pipeline's row count equals that of its own deduplication pass
(no later pass adds or removes rows), for tables with distinct column
names. -/
theorem nRows_cleanData (sim : String → String → Nat) (dparse : Value → Option String)
    (t : Table) (h : (t.map (·.name)).Nodup) :
    nRows (cleanData sim dparse t) = nRows (rowDedup t) := by
  unfold cleanData
  rw [nRows_dropDupCols _ (by rw [names_preDrop]; exact h), nRows_preDrop]

/-- The cleaned table's name list is a sublist of the input's. -/
theorem names_cleanData_sublist (sim : String → String → Nat)
    (dparse : Value → Option String) (t : Table) :
    ((cleanData sim dparse t).map (·.name)).Sublist (t.map (·.name)) := by
  unfold cleanData dropDupCols
  have hsub : (List.filter
      (fun c => decide (c.name ∉ scanPairs [] (preDrop sim dparse t)))
      (preDrop sim dparse t)).Sublist (preDrop sim dparse t) :=
    List.filter_sublist _
  have := hsub.map (·.name)
  rw [names_preDrop] at this
  exact this

/-- C6, amended: a second pipeline run on the output of the first is not in
general a fixed point; its only row removals are those of its own initial
deduplication pass, so its row count equals that of the first run's output
after removing the duplicate rows that remain there (the rows the Final
Consistency Check reports).  When the first output has no duplicate rows
the second run removes none. -/
theorem C6_amended (sim : String → String → Nat) (dparse : Value → Option String)
    (t : Table) (h : (t.map (·.name)).Nodup) :
    nRows (cleanData sim dparse (cleanData sim dparse t))
      = nRows (rowDedup (cleanData sim dparse t)) := by
  refine nRows_cleanData sim dparse _ ?_
  exact (names_cleanData_sublist sim dparse t).nodup h

/-- Witness for `C6_amended` at the one-column table whose rows merge under
lowercasing. -/
theorem C6_amended_witness :
    nRows (cleanData zeroSim noParse (cleanData zeroSim noParse
        [⟨"c", .obj, [.vStr "A", .vStr "a"]⟩]))
      = nRows (rowDedup (cleanData zeroSim noParse
        [⟨"c", .obj, [.vStr "A", .vStr "a"]⟩])) :=
  C6_amended zeroSim noParse [⟨"c", .obj, [.vStr "A", .vStr "a"]⟩] (by decide)

/-- Names added by the inner fold of the pair scan belong to columns that
compare equal to the leading column. -/
theorem foldl_mark_eq (c : Col) :
    ∀ (rest : List Col) (d : List String) (x : String),
      x ∈ rest.foldl
        (fun d c2 =>
          if c.name ∉ d ∧ c2.name ∉ d ∧ colEquals c c2 then d ++ [c2.name] else d) d →
      x ∈ d ∨ ∃ j, ∃ (hj : j < rest.length),
        (rest.get ⟨j, hj⟩).name = x ∧ colEquals c (rest.get ⟨j, hj⟩) = true := by
  intro rest
  induction rest with
  | nil => intro d x hx; exact Or.inl hx
  | cons c2 rest ih =>
    intro d x hx
    simp only [List.foldl_cons] at hx
    rcases ih _ x hx with hd | ⟨j, hj, hname, heq⟩
    · by_cases hcond : c.name ∉ d ∧ c2.name ∉ d ∧ colEquals c c2
      · rw [if_pos hcond] at hd
        rcases List.mem_append.mp hd with h1 | h1
        · exact Or.inl h1
        · refine Or.inr ⟨0, by simp, ?_, ?_⟩
          · simpa using (List.mem_singleton.mp h1).symm
          · simpa using hcond.2.2
      · rw [if_neg hcond] at hd
        exact Or.inl hd
    · exact Or.inr ⟨j + 1, by simpa using Nat.succ_lt_succ hj, hname, heq⟩

/-- Every name marked by the pair scan belongs to a column that compares
equal to an earlier column of the scanned list. -/
theorem scanPairs_marked :
    ∀ (l : List Col) (d : List String) (x : String),
      x ∈ scanPairs d l →
      x ∈ d ∨ ∃ i j, ∃ (hij : i < j) (hj : j < l.length),
        (l.get ⟨j, hj⟩).name = x ∧
        colEquals (l.get ⟨i, Nat.lt_trans hij hj⟩) (l.get ⟨j, hj⟩) = true := by
  intro l
  induction l with
  | nil => intro d x hx; exact Or.inl hx
  | cons c rest ih =>
    intro d x hx
    unfold scanPairs at hx
    rcases ih _ x hx with hd | ⟨i, j, hij, hj, hname, heq⟩
    · rcases foldl_mark_eq c rest d x hd with h1 | ⟨j, hj, hname, heq⟩
      · exact Or.inl h1
      · exact Or.inr ⟨0, j + 1, Nat.succ_pos j, Nat.succ_lt_succ hj, hname, heq⟩
    · exact Or.inr
        ⟨i + 1, j + 1, Nat.succ_lt_succ hij, Nat.succ_lt_succ hj, hname, heq⟩

/-- C7, amended: a column is never removed for containing missing or
sentinel values; the column list can only shrink at the duplicate-column
scan, which compares the columns *after* the value-rewriting passes.  The
output is a sublist of the pre-scan table, and every pre-scan column that
is not element-wise identical (same dtype, same cells) to an earlier
pre-scan column is present in the output. -/
theorem C7_amended (sim : String → String → Nat) (dparse : Value → Option String)
    (t : Table) (h : (t.map (·.name)).Nodup) :
    (cleanData sim dparse t).Sublist (preDrop sim dparse t) ∧
    ∀ j (hj : j < (preDrop sim dparse t).length),
      (∀ i (hi : i < j),
        colEquals ((preDrop sim dparse t).get ⟨i, Nat.lt_trans hi hj⟩)
          ((preDrop sim dparse t).get ⟨j, hj⟩) = false) →
      (preDrop sim dparse t).get ⟨j, hj⟩ ∈ cleanData sim dparse t := by
  have hnames : ((preDrop sim dparse t).map (·.name)).Nodup := by
    rw [names_preDrop]
    exact h
  constructor
  · unfold cleanData dropDupCols
    exact List.filter_sublist _
  · intro j hj hno
    unfold cleanData dropDupCols
    refine List.mem_filter.mpr ⟨List.get_mem _ _ hj, ?_⟩
    simp only [decide_eq_true_eq]
    intro hmark
    rcases scanPairs_marked (preDrop sim dparse t) [] _ hmark with h1 | ⟨i, j2, hij, hj2, hname, heq⟩
    · cases h1
    · have hinj : j2 = j := by
        have hgetmap : ∀ (k : Nat) (hk : k < (preDrop sim dparse t).length),
            ((preDrop sim dparse t).map (·.name)).get
              ⟨k, by simpa using hk⟩ = ((preDrop sim dparse t).get ⟨k, hk⟩).name := by
          intro k hk
          simp
        have hinj2 := List.nodup_iff_injective_get.mp hnames
        have heqn : ((preDrop sim dparse t).map (·.name)).get ⟨j2, by simpa using hj2⟩
            = ((preDrop sim dparse t).map (·.name)).get ⟨j, by simpa using hj⟩ := by
          rw [hgetmap j2 hj2, hgetmap j hj, hname]
        have := hinj2 heqn
        exact congrArg Fin.val this
      subst hinj
      have := hno i hij
      rw [this] at heq
      exact Bool.false_ne_true heq

/-- Witness for `C7_amended`: in the two-column counterexample table, the
leading column (never equal to an earlier one) survives. -/
theorem C7_amended_witness :
    (preDrop zeroSim noParse [⟨"a", .obj, [.vStr "A"]⟩, ⟨"b", .obj, [.vStr "a"]⟩]).get
        ⟨0, by with_unfolding_all decide⟩
      ∈ cleanData zeroSim noParse [⟨"a", .obj, [.vStr "A"]⟩, ⟨"b", .obj, [.vStr "a"]⟩] :=
  (C7_amended zeroSim noParse [⟨"a", .obj, [.vStr "A"]⟩, ⟨"b", .obj, [.vStr "a"]⟩]
      (by decide)).2 0 (by with_unfolding_all decide)
    (fun i hi => absurd hi (Nat.not_lt_zero i))

/-! ### Single-column pipeline evaluation (for the numeric scenario) -/

/-- `maskList` distributes over cons. -/
theorem maskList_cons {α : Type} (b : Bool) (bs : List Bool) (v : α) (vs : List α) :
    maskList (b :: bs) (v :: vs) = if b then v :: maskList bs vs else maskList bs vs := by
  cases b <;> simp [maskList]

/-- Membership in the seen-list deduplication. -/
theorem mem_dedupFirstAux {α : Type} [DecidableEq α] :
    ∀ (l : List α) (seen : List α) (x : α),
      x ∈ dedupFirstAux seen l ↔ x ∈ l ∧ x ∉ seen := by
  intro l
  induction l with
  | nil => intro seen x; simp [dedupFirstAux]
  | cons a as ih =>
    intro seen x
    unfold dedupFirstAux
    by_cases ha : a ∈ seen
    · rw [if_pos ha, ih seen x]
      constructor
      · exact fun ⟨h1, h2⟩ => ⟨List.mem_cons_of_mem a h1, h2⟩
      · rintro ⟨h1, h2⟩
        rcases List.mem_cons.mp h1 with rfl | h1
        · exact absurd ha h2
        · exact ⟨h1, h2⟩
    · rw [if_neg ha]
      constructor
      · intro hx
        rcases List.mem_cons.mp hx with rfl | hx
        · exact ⟨List.mem_cons_self _ _, ha⟩
        · rcases (ih (a :: seen) x).mp hx with ⟨h1, h2⟩
          refine ⟨List.mem_cons_of_mem a h1, fun hseen => h2 (List.mem_cons_of_mem a hseen)⟩
      · rintro ⟨h1, h2⟩
        rcases List.mem_cons.mp h1 with rfl | h1
        · exact List.mem_cons_self x _
        · by_cases hxa : x = a
          · exact hxa ▸ List.mem_cons_self a _
          · exact List.mem_cons_of_mem a
              ((ih (a :: seen) x).mpr ⟨h1, fun hs => by
                rcases List.mem_cons.mp hs with h | h
                · exact hxa h
                · exact h2 h⟩)

/-- Membership in `dedupFirst`. -/
theorem mem_dedupFirst {α : Type} [DecidableEq α] (l : List α) (x : α) :
    x ∈ dedupFirst l ↔ x ∈ l := by
  unfold dedupFirst
  rw [mem_dedupFirstAux]
  simp

/-- On a one-column table, the row list is the cell list boxed
element-wise. -/
theorem rowsOf_single (name : String) (d : DType) (vs : List Value) :
    rowsOf [⟨name, d, vs⟩] = vs.map (fun v => [v]) := by
  unfold rowsOf nRows
  simp only [List.map_cons, List.map_nil]
  show (List.range vs.length).map (fun i => [vs.getD i .vNA]) = vs.map (fun v => [v])
  induction vs with
  | nil => simp
  | cons a t ih =>
    rw [List.length_cons, List.range_succ_eq_map]
    simp only [List.map_cons, List.getD_cons_zero, List.map_map]
    congr 1

/-- The first-occurrence mask over boxed rows computes first-occurrence
deduplication of the cells. -/
theorem maskList_firstOccFlags_box :
    ∀ (vs : List Value) (seenRows : List (List Value)) (seen : List Value),
      (∀ v : Value, [v] ∈ seenRows ↔ v ∈ seen) →
      maskList (firstOccFlags seenRows (vs.map (fun v => [v]))) vs
        = dedupFirstAux seen vs := by
  intro vs
  induction vs with
  | nil => intro seenRows seen _; rfl
  | cons a t ih =>
    intro seenRows seen hiff
    simp only [List.map_cons]
    unfold firstOccFlags dedupFirstAux
    rw [maskList_cons]
    by_cases ha : a ∈ seen
    · rw [if_neg (by simp [hiff a, ha]), if_pos ha]
      exact ih ([a] :: seenRows) seen fun v => by
        constructor
        · intro hv
          rcases List.mem_cons.mp hv with hv | hv
          · rw [List.singleton_inj.mp hv]
            exact ha
          · exact (hiff v).mp hv
        · intro hv
          exact List.mem_cons_of_mem _ ((hiff v).mpr hv)
    · rw [if_pos (by simp [hiff a, ha]), if_neg ha]
      congr 1
      exact ih ([a] :: seenRows) (a :: seen) fun v => by
        constructor
        · intro hv
          rcases List.mem_cons.mp hv with hv | hv
          · rw [List.singleton_inj.mp hv]
            exact List.mem_cons_self a seen
          · exact List.mem_cons_of_mem _ ((hiff v).mp hv)
        · intro hv
          rcases List.mem_cons.mp hv with rfl | hv
          · exact List.mem_cons_self [v] seenRows
          · exact List.mem_cons_of_mem _ ((hiff v).mpr hv)

/-- Row deduplication of a one-column table deduplicates the cells,
keeping first occurrences. -/
theorem rowDedup_single (name : String) (d : DType) (vs : List Value) :
    rowDedup [⟨name, d, vs⟩] = [⟨name, d, dedupFirst vs⟩] := by
  unfold rowDedup
  simp only [List.map_cons, List.map_nil, rowsOf_single]
  rw [maskList_firstOccFlags_box vs [] [] (fun v => by simp)]
  rfl

/-- A column with no string cell other than possibly the sentinel has no
fuzzy candidates. -/
theorem uniqueStrs_eq_nil (c : Col)
    (hv : ∀ v ∈ c.vals, (∃ q, v = .vFloat q) ∨ v = .vStr NULL_MARKER) :
    uniqueStrs c = [] := by
  unfold uniqueStrs
  rw [List.filterMap_eq_nil_iff]
  intro v hv2
  have hvmem : v ∈ c.vals := by
    have := (mem_dedupFirst _ v).mp hv2
    exact List.mem_of_mem_filter this
  rcases hv v hvmem with ⟨q, rfl⟩ | rfl
  · rfl
  · simp

/-- A column without fuzzy candidates passes through the consolidation
step unchanged. -/
theorem fuzzyStep_of_no_strs (sim : String → String → Nat) (tn : List String)
    (c : Col) (h : uniqueStrs c = []) : fuzzyStep sim tn c = c := by
  unfold fuzzyStep fuzzyFixCol
  rw [h]
  simp

/-- The duplicate-column scan never drops anything from a one-column
table. -/
theorem dropDupCols_single (c : Col) : dropDupCols [c] = [c] := by
  unfold dropDupCols scanPairs scanPairs
  simp

/-- An empty `text_cols` snapshot leaves every column unchanged. -/
theorem textLowerCol_nil (c : Col) : textLowerCol [] c = c := by
  unfold textLowerCol
  simp

/-- C4, amended: a floating-point column containing a missing value is
converted to dtype `object` when the sentinel is filled in, and is
therefore **not** rounded — the scenario `[1.005, 2.0, None]` yields
`[1.005, 2.0, "null"]`, not `[1.0, 2.0, "null"]`.  Only a float column
with no missing value stays float-typed and has all its cells rounded to
2 decimals (half-even). -/
theorem C4_amended (sim : String → String → Nat) (dparse : Value → Option String)
    (name : String) (vs : List Value)
    (hv : ∀ v ∈ vs, (∃ q, v = .vFloat q) ∨ v = .vNA)
    (hname : isDateCandidate name = false) :
    (Value.vNA ∉ vs → cleanData sim dparse [⟨name, .float64, vs⟩]
        = [⟨name, .float64, (dedupFirst vs).map roundVal⟩]) ∧
    (Value.vNA ∈ vs → cleanData sim dparse [⟨name, .float64, vs⟩]
        = [⟨name, .obj, (dedupFirst vs).map fillVal⟩]) := by
  have hdd := rowDedup_single name DType.float64 vs
  constructor
  · intro hna
    have hnacontains : (dedupFirst vs).contains .vNA = false := by
      rw [show ((dedupFirst vs).contains Value.vNA) = List.elem Value.vNA (dedupFirst vs)
            from rfl,
        List.elem_eq_mem, decide_eq_false_iff_not]
      exact fun hmem => hna ((mem_dedupFirst vs .vNA).mp hmem)
    have hfillc : fillMissingCol ⟨name, .float64, dedupFirst vs⟩
        = ⟨name, .float64, dedupFirst vs⟩ := by
      unfold fillMissingCol
      rw [hnacontains]
      simp
    have hdate : dateStdCol dparse ⟨name, .float64, dedupFirst vs⟩
        = ⟨name, .float64, dedupFirst vs⟩ := by
      unfold dateStdCol
      rw [hname]
      simp
    have hround : roundFloatsCol ⟨name, .float64, dedupFirst vs⟩
        = ⟨name, .float64, (dedupFirst vs).map roundVal⟩ := by
      unfold roundFloatsCol
      simp
    have hfz : fuzzyStep sim [] ⟨name, .float64, (dedupFirst vs).map roundVal⟩
        = ⟨name, .float64, (dedupFirst vs).map roundVal⟩ := by
      unfold fuzzyStep
      simp
    simp only [cleanData, preDrop, fillMissing, fuzzyFix, hdd, List.map_cons,
      List.map_nil, hfillc, List.filter_cons, List.filter_nil]
    simp only [show (DType.float64 = DType.obj) = False from by simp, decide_False,
      Bool.false_eq_true, if_false, List.map_nil]
    rw [textLowerCol_nil, hdate, hround, hfz, dropDupCols_single]
  · intro hna
    have hnacontains : (dedupFirst vs).contains .vNA = true := by
      rw [show ((dedupFirst vs).contains Value.vNA) = List.elem Value.vNA (dedupFirst vs)
            from rfl,
        List.elem_eq_mem, decide_eq_true_eq]
      exact (mem_dedupFirst vs .vNA).mpr hna
    have hfillc : fillMissingCol ⟨name, .float64, dedupFirst vs⟩
        = ⟨name, .obj, (dedupFirst vs).map fillVal⟩ := by
      unfold fillMissingCol
      rw [hnacontains]
      simp [isNumericDtype]
    have hcellkinds : ∀ v ∈ ((dedupFirst vs).map fillVal),
        (∃ q, v = Value.vFloat q) ∨ v = .vStr NULL_MARKER := by
      intro v hvm
      rcases List.mem_map.mp hvm with ⟨w, hw, rfl⟩
      rcases hv w ((mem_dedupFirst vs w).mp hw) with ⟨q, rfl⟩ | rfl
      · exact Or.inl ⟨q, rfl⟩
      · exact Or.inr rfl
    have hmapfix : ((dedupFirst vs).map fillVal).map lowerTrimVal
        = (dedupFirst vs).map fillVal := by
      rw [List.map_map]
      refine List.map_congr_left fun v hvm => ?_
      rcases hv v ((mem_dedupFirst vs v).mp hvm) with ⟨q, rfl⟩ | rfl
      · rfl
      · show lowerTrimVal (.vStr NULL_MARKER) = .vStr NULL_MARKER
        simp [lowerTrimVal]
    have htext : textLowerCol [name] ⟨name, .obj, (dedupFirst vs).map fillVal⟩
        = ⟨name, .obj, (dedupFirst vs).map fillVal⟩ := by
      unfold textLowerCol
      rw [if_pos (by simp)]
      simp only [hmapfix]
    have hdate : dateStdCol dparse ⟨name, .obj, (dedupFirst vs).map fillVal⟩
        = ⟨name, .obj, (dedupFirst vs).map fillVal⟩ := by
      unfold dateStdCol
      rw [hname]
      simp
    have hround : roundFloatsCol ⟨name, .obj, (dedupFirst vs).map fillVal⟩
        = ⟨name, .obj, (dedupFirst vs).map fillVal⟩ := by
      unfold roundFloatsCol
      simp
    have hfz : fuzzyStep sim [name] ⟨name, .obj, (dedupFirst vs).map fillVal⟩
        = ⟨name, .obj, (dedupFirst vs).map fillVal⟩ :=
      fuzzyStep_of_no_strs sim [name] _ (uniqueStrs_eq_nil _ hcellkinds)
    simp only [cleanData, preDrop, fillMissing, fuzzyFix, hdd, List.map_cons,
      List.map_nil, hfillc, List.filter_cons, List.filter_nil]
    simp only [show (DType.obj = DType.obj) = True from by simp, decide_True,
      if_true, List.map_cons, List.map_nil]
    rw [htext, hdate, hround, hfz, dropDupCols_single]

/-- Witness for `C4_amended` at the scenario column `[1.005, 2.0, None]`. -/
theorem C4_amended_witness :
    cleanData zeroSim noParse [⟨"amount", .float64, [.vFloat (201/200), .vFloat 2, .vNA]⟩]
      = [⟨"amount", .obj,
          (dedupFirst [Value.vFloat (201/200), .vFloat 2, .vNA]).map fillVal⟩] :=
  (C4_amended zeroSim noParse "amount" [.vFloat (201/200), .vFloat 2, .vNA]
      (by
        intro v hv
        rcases List.mem_cons.mp hv with rfl | hv
        · exact Or.inl ⟨_, rfl⟩
        rcases List.mem_cons.mp hv with rfl | hv
        · exact Or.inl ⟨_, rfl⟩
        rcases List.mem_cons.mp hv with rfl | hv
        · exact Or.inr rfl
        · cases hv)
      (by decide)).2 (by simp)

/-! ### Decimal rendering facts (for the `_k` suffixes) -/

/-- Digit characters are digits. -/
theorem digitChr_isDigit (d : Nat) : (digitChr d).isDigit = true := by
  unfold digitChr
  split <;> decide

/-- Digit characters are identifier-safe and distinct below 10. -/
theorem digitChr_inj (d1 d2 : Nat) (h1 : d1 < 10) (h2 : d2 < 10)
    (h : digitChr d1 = digitChr d2) : d1 = d2 := by
  interval_cases d1 <;> interval_cases d2 <;> revert h <;> decide

/-- Every character of the decimal rendering is a digit. -/
theorem natChars_all_digits (n : Nat) : ∀ c ∈ natChars n, c.isDigit = true := by
  induction n using Nat.strong_induction_on with
  | _ n ih =>
    intro c hc
    unfold natChars at hc
    split at hc
    · rw [List.mem_singleton.mp hc]
      exact digitChr_isDigit n
    · rcases List.mem_append.mp hc with h | h
      · exact ih (n / 10) (Nat.div_lt_self (by omega) (by omega)) c h
      · rw [List.mem_singleton.mp h]
        exact digitChr_isDigit (n % 10)

/-- The decimal rendering is never empty. -/
theorem natChars_ne_nil (n : Nat) : natChars n ≠ [] := by
  unfold natChars
  split
  · simp
  · simp

/-- The decimal rendering is injective. -/
theorem natChars_inj : ∀ n m : Nat, natChars n = natChars m → n = m := by
  intro n
  induction n using Nat.strong_induction_on with
  | _ n ih =>
    intro m h
    unfold natChars at h
    split at h <;> split at h
    · rename_i hn hm
      exact (Nat.mod_eq_of_lt hn) ▸ (Nat.mod_eq_of_lt hm) ▸
        congrArg (· % 10)
          (digitChr_inj n m (by omega) (by omega) (List.singleton_inj.mp h))
    · exfalso
      have hlen := congrArg List.length h
      simp at hlen
      have := natChars_ne_nil (m / 10)
      cases hnc : natChars (m / 10) with
      | nil => exact this hnc
      | cons a t => rw [hnc] at hlen; simp at hlen
    · exfalso
      have hlen := congrArg List.length h
      simp at hlen
      have := natChars_ne_nil (n / 10)
      cases hnc : natChars (n / 10) with
      | nil => exact this hnc
      | cons a t => rw [hnc] at hlen; simp at hlen
    · rename_i hn hm
      have hrev := congrArg List.reverse h
      simp only [List.reverse_append, List.reverse_cons, List.reverse_nil,
        List.nil_append, List.singleton_append] at hrev
      have hhead : digitChr (n % 10) = digitChr (m % 10) := (List.cons.inj hrev).1
      have htail : (natChars (n / 10)).reverse = (natChars (m / 10)).reverse :=
        (List.cons.inj hrev).2
      have hdiv : n / 10 = m / 10 :=
        ih (n / 10) (Nat.div_lt_self (by omega) (by omega)) (m / 10)
          (List.reverse_injective htail)
      have hmod : n % 10 = m % 10 :=
        digitChr_inj _ _ (Nat.mod_lt n (by omega)) (Nat.mod_lt m (by omega)) hhead
      omega

/-- The decimal string is never empty. -/
theorem natStr_data (n : Nat) : (natStr n).data = natChars n := rfl

/-- The decimal string rendering is injective. -/
theorem natStr_inj (n m : Nat) (h : natStr n = natStr m) : n = m :=
  natChars_inj n m (congrArg String.data h)

/-! ### Character-level facts about the canonicalization -/

/-- Case split on a true boolean disjunction. -/
theorem bor_cases {a b : Bool} (h : (a || b) = true) : a = true ∨ b = true := by
  cases a
  · exact Or.inr (by simpa using h)
  · exact Or.inl rfl

/-- Lowercasing never yields an upper-case letter. -/
theorem pyLowerChar_not_upper (c : Char) : (pyLowerChar c).isUpper = false := by
  unfold pyLowerChar
  split
  · rename_i h
    obtain ⟨h1, h2⟩ := h
    generalize hn : c.toNat = n at h1 h2
    interval_cases n <;> decide
  · rename_i h
    cases hu : c.isUpper
    · rfl
    · exfalso
      have h65 : (65 : UInt32) ≤ c.val ∧ c.val ≤ (90 : UInt32) := by
        simpa [Char.isUpper] using hu
      refine h ⟨?_, ?_⟩
      · exact UInt32.le_toNat_of_le (by decide) h65.1
      · exact UInt32.toNat_le_of_le (by decide) h65.2

/-- Lowercasing preserves word characters. -/
theorem isWordChar_pyLowerChar (c : Char) (h : isWordChar c = true) :
    isWordChar (pyLowerChar c) = true := by
  unfold pyLowerChar
  split
  · rename_i hr
    obtain ⟨h1, h2⟩ := hr
    generalize hn : c.toNat = n at h1 h2
    interval_cases n <;> decide
  · exact h

/-- The ASCII code ranges of the word characters. -/
theorem isWordChar_toNat (c : Char) (h : isWordChar c = true) :
    (48 ≤ c.toNat ∧ c.toNat ≤ 57) ∨ (65 ≤ c.toNat ∧ c.toNat ≤ 90) ∨
    (97 ≤ c.toNat ∧ c.toNat ≤ 122) ∨ c.toNat = 95 := by
  unfold isWordChar at h
  rcases bor_cases h with halnum | hund
  · unfold Char.isAlphanum at halnum
    rcases bor_cases halnum with halpha | hdig
    · unfold Char.isAlpha at halpha
      rcases bor_cases halpha with hup | hlo
      · have h2 : (65 : UInt32) ≤ c.val ∧ c.val ≤ (90 : UInt32) := by
          simpa [Char.isUpper] using hup
        exact Or.inr (Or.inl ⟨UInt32.le_toNat_of_le (by decide) h2.1,
          UInt32.toNat_le_of_le (by decide) h2.2⟩)
      · have h2 : (97 : UInt32) ≤ c.val ∧ c.val ≤ (122 : UInt32) := by
          simpa [Char.isLower] using hlo
        exact Or.inr (Or.inr (Or.inl ⟨UInt32.le_toNat_of_le (by decide) h2.1,
          UInt32.toNat_le_of_le (by decide) h2.2⟩))
    · have h2 : (48 : UInt32) ≤ c.val ∧ c.val ≤ (57 : UInt32) := by
        simpa [Char.isDigit] using hdig
      exact Or.inl ⟨UInt32.le_toNat_of_le (by decide) h2.1,
        UInt32.toNat_le_of_le (by decide) h2.2⟩
  · have hc : c = '_' := by simpa using hund
    subst hc
    exact Or.inr (Or.inr (Or.inr (by decide)))

/-- Word characters are not Python whitespace. -/
theorem isWordChar_not_pySpace (c : Char) (h : isWordChar c = true) :
    pyIsSpace c = false := by
  have hb := isWordChar_toNat c h
  unfold pyIsSpace
  rw [decide_eq_false_iff_not]
  rcases hb with ⟨h1, h2⟩ | ⟨h1, h2⟩ | ⟨h1, h2⟩ | h1 <;> omega

/-- Members failing the predicate survive `dropWhile`. -/
theorem mem_dropWhile_of_neg (p : Char → Bool) (c : Char) (hc : p c = false) :
    ∀ l : List Char, c ∈ l → c ∈ l.dropWhile p := by
  intro l
  induction l with
  | nil => intro h; cases h
  | cons a t ih =>
    intro hmem
    by_cases ha : p a = true
    · rw [List.dropWhile_cons_of_pos ha]
      rcases List.mem_cons.mp hmem with rfl | hmem
      · rw [ha] at hc; cases hc
      · exact ih hmem
    · rw [List.dropWhile_cons_of_neg ha]
      exact hmem

/-- Non-whitespace members survive stripping. -/
theorem mem_stripChars (c : Char) (hc : pyIsSpace c = false) (l : List Char)
    (h : c ∈ l) : c ∈ stripChars l := by
  unfold stripChars
  rw [List.mem_reverse]
  refine mem_dropWhile_of_neg pyIsSpace c hc _ ?_
  rw [List.mem_reverse]
  exact mem_dropWhile_of_neg pyIsSpace c hc l h

/-- Non-whitespace members survive whitespace collapsing. -/
theorem mem_collapseWS (c : Char) (hc : pyIsSpace c = false) :
    ∀ (l : List Char) (b : Bool), c ∈ l → c ∈ collapseWS b l := by
  intro l
  induction l with
  | nil => intro b h; cases h
  | cons a t ih =>
    intro b hmem
    unfold collapseWS
    by_cases ha : pyIsSpace a
    · rw [if_pos ha]
      have hct : c ∈ t := by
        rcases List.mem_cons.mp hmem with rfl | hmem
        · rw [ha] at hc; cases hc
        · exact hmem
      split
      · exact ih true hct
      · exact List.mem_cons_of_mem _ (ih true hct)
    · rw [if_neg ha]
      rcases List.mem_cons.mp hmem with rfl | hmem
      · exact List.mem_cons_self _ _
      · exact List.mem_cons_of_mem _ (ih false hmem)

/-- Characters produced by collapsing are underscores or original
characters. -/
theorem mem_collapseWS_src (c : Char) :
    ∀ (l : List Char) (b : Bool), c ∈ collapseWS b l → c = '_' ∨ c ∈ l := by
  intro l
  induction l with
  | nil => intro b h; cases h
  | cons a t ih =>
    intro b hmem
    unfold collapseWS at hmem
    by_cases ha : pyIsSpace a
    · rw [if_pos ha] at hmem
      split at hmem
      · rcases ih true hmem with h | h
        · exact Or.inl h
        · exact Or.inr (List.mem_cons_of_mem _ h)
      · rcases List.mem_cons.mp hmem with rfl | hmem
        · exact Or.inl rfl
        · rcases ih true hmem with h | h
          · exact Or.inl h
          · exact Or.inr (List.mem_cons_of_mem _ h)
    · rw [if_neg ha] at hmem
      rcases List.mem_cons.mp hmem with rfl | hmem
      · exact Or.inr (List.mem_cons_self _ _)
      · rcases ih false hmem with h | h
        · exact Or.inl h
        · exact Or.inr (List.mem_cons_of_mem _ h)

/-- Every character of a canonical name is in `[a-z0-9_]`. -/
theorem canonName_chars (r : String) :
    ∀ c ∈ (canonName r).data, isIdentChar c = true := by
  intro c hc
  have hc2 : isWordChar c = true ∧
      c ∈ collapseWS false (stripChars (r.data.map pyLowerChar)) := by
    have := List.mem_filter.mp hc
    exact ⟨this.2, this.1⟩
  rcases mem_collapseWS_src c _ false hc2.2 with rfl | hsrc
  · rfl
  · have htrim : c ∈ r.data.map pyLowerChar := by
      unfold stripChars at hsrc
      have h1 := List.mem_reverse.mp hsrc
      have h2 := (List.dropWhile_sublist _).subset h1
      have h3 := List.mem_reverse.mp h2
      exact (List.dropWhile_sublist _).subset h3
    rcases List.mem_map.mp htrim with ⟨c0, _, rfl⟩
    have hnu := pyLowerChar_not_upper c0
    have hword := hc2.1
    unfold isWordChar at hword
    unfold isIdentChar
    rcases bor_cases hword with halnum | hund
    · have hld : (pyLowerChar c0).isLower = true ∨ (pyLowerChar c0).isDigit = true := by
        unfold Char.isAlphanum at halnum
        rcases bor_cases halnum with halpha | hdig
        · unfold Char.isAlpha at halpha
          rcases bor_cases halpha with hup | hlo
          · rw [hnu] at hup; cases hup
          · exact Or.inl hlo
        · exact Or.inr hdig
      rcases hld with h | h <;> simp [h]
    · simp [hund]

/-- A raw name containing a word character canonicalizes to a nonempty
name. -/
theorem canonName_ne_nil (r : String) (h : ∃ ch ∈ r.data, isWordChar ch = true) :
    (canonName r).data ≠ [] := by
  obtain ⟨ch, hmem, hword⟩ := h
  have h1 : pyLowerChar ch ∈ r.data.map pyLowerChar := List.mem_map_of_mem _ hmem
  have hword2 : isWordChar (pyLowerChar ch) = true := isWordChar_pyLowerChar ch hword
  have hnws : pyIsSpace (pyLowerChar ch) = false := isWordChar_not_pySpace _ hword2
  have h2 := mem_stripChars _ hnws _ h1
  have h3 := mem_collapseWS _ hnws _ false h2
  have h4 : pyLowerChar ch ∈ (canonName r).data := List.mem_filter.mpr ⟨h3, hword2⟩
  exact List.ne_nil_of_mem h4

/-- `takeWhile` swallows a satisfying prefix and stops at a failing
element. -/
theorem takeWhile_all_append (p : Char → Bool) :
    ∀ (xs : List Char) (y : Char) (ys : List Char),
      (∀ c ∈ xs, p c = true) → p y = false →
      (xs ++ y :: ys).takeWhile p = xs := by
  intro xs
  induction xs with
  | nil =>
    intro y ys _ hy
    rw [List.nil_append]
    rw [List.takeWhile_cons_of_neg (by rw [hy]; exact Bool.false_ne_true)]
  | cons a t ih =>
    intro y ys hall hy
    rw [List.cons_append, List.takeWhile_cons_of_pos (hall a (List.mem_cons_self a t))]
    rw [ih y ys (fun c hc => hall c (List.mem_cons_of_mem a hc)) hy]

/-- A name of the form `x ++ "_" ++ digits` has a digit suffix. -/
theorem hasUDigitSuffix_append (x : String) (d : List Char) (hd : d ≠ [])
    (hdig : ∀ c ∈ d, c.isDigit = true) :
    hasUDigitSuffix ⟨x.data ++ '_' :: d⟩ = true := by
  unfold hasUDigitSuffix
  have hrev : (x.data ++ '_' :: d).reverse = d.reverse ++ '_' :: x.data.reverse := by
    rw [List.reverse_append, List.reverse_cons, List.append_assoc]
    simp
  simp only [hrev]
  have htw : (d.reverse ++ '_' :: x.data.reverse).takeWhile (·.isDigit) = d.reverse :=
    takeWhile_all_append _ d.reverse '_' x.data.reverse
      (fun c hc => hdig c (List.mem_reverse.mp hc)) (by decide)
  rw [htw]
  have hdr : (d.reverse ++ '_' :: x.data.reverse).drop d.reverse.length
      = '_' :: x.data.reverse := List.drop_left _ _
  rw [hdr]
  simp only [Bool.and_eq_true, decide_eq_true_eq]
  exact ⟨fun h => hd (by simpa using congrArg List.reverse h), by trivial⟩

/-! ### The collision-resolution pass in closed form -/

/-- Updating the counter of `new` in the seen map bumps its lookup. -/
theorem lookup_map_update (new : String) (k : Nat) :
    ∀ (seen : List (String × Nat)), seen.lookup new = some k →
      (seen.map (fun p => if p.1 = new then (new, k + 1) else p)).lookup new
        = some (k + 1) := by
  intro seen
  induction seen with
  | nil => intro h; cases h
  | cons p rest ih =>
    intro h
    by_cases hp : p.1 = new
    · simp only [List.map_cons, if_pos hp]
      simp [List.lookup]
    · simp only [List.map_cons, if_neg hp]
      have hne : (new == p.1) = false := by
        simp only [beq_eq_false_iff_ne, ne_eq]
        exact fun he => hp he.symm
      simp only [List.lookup, hne] at h ⊢
      exact ih h

/-- Updating the counter of `new` leaves other lookups unchanged. -/
theorem lookup_map_update_ne (new n : String) (k : Nat) (hne : n ≠ new) :
    ∀ (seen : List (String × Nat)),
      (seen.map (fun p => if p.1 = new then (new, k + 1) else p)).lookup n
        = seen.lookup n := by
  intro seen
  induction seen with
  | nil => rfl
  | cons p rest ih =>
    by_cases hp : p.1 = new
    · simp only [List.map_cons, if_pos hp]
      have h1 : (n == new) = false := by
        simp only [beq_eq_false_iff_ne, ne_eq]
        exact hne
      have h2 : (n == p.1) = false := by
        simp only [beq_eq_false_iff_ne, ne_eq]
        exact fun he => hne (he.trans hp)
      simp only [List.lookup, h1, h2]
      exact ih
    · simp only [List.map_cons, if_neg hp]
      by_cases hq : (n == p.1) = true
      · simp only [List.lookup, hq]
      · simp only [List.lookup, Bool.not_eq_true] at hq
        simp only [List.lookup, hq]
        exact ih

/-- The collision pass computes `pairAssign`, given a seen map that
tabulates occurrence counts of the already-processed canonical names. -/
theorem resolveCollisions_eq_pairAssign :
    ∀ (entries : List (String × String)) (seen : List (String × Nat))
      (cs0 : List String),
      (∀ n : String, seen.lookup n
         = if cs0.count n = 0 then none else some (cs0.count n)) →
      resolveCollisions seen entries = pairAssign cs0 entries := by
  intro entries
  induction entries with
  | nil => intro seen cs0 _; rfl
  | cons e rest ih =>
    intro seen cs0 hinv
    obtain ⟨old, new⟩ := e
    unfold resolveCollisions pairAssign
    rw [hinv new]
    by_cases hz : cs0.count new = 0
    · rw [if_pos hz]
      simp only
      unfold assignName
      rw [if_pos hz]
      refine congrArg _ (ih _ (cs0 ++ [new]) fun n => ?_)
      rw [List.lookup_append]
      by_cases hn : n = new
      · subst hn
        rw [hinv n, if_pos hz]
        have hcount : (cs0 ++ [n]).count n = 1 := by
          simp [List.count_append, hz]
        rw [hcount]
        simp [List.lookup]
      · rw [hinv n]
        have hne : (n == new) = false := by
          simp only [beq_eq_false_iff_ne, ne_eq]
          exact hn
        have hcount : (cs0 ++ [new]).count n = cs0.count n := by
          simp [List.count_append, List.count_singleton, hne]
          exact fun he => hn he.symm
        rw [hcount]
        by_cases hc : cs0.count n = 0
        · rw [if_pos hc]
          simp [List.lookup, hne]
        · rw [if_neg hc]
          simp [Option.or_some]
    · rw [if_neg hz]
      simp only
      unfold assignName
      rw [if_neg hz]
      refine congrArg _ (ih _ (cs0 ++ [new]) fun n => ?_)
      by_cases hn : n = new
      · subst hn
        have hlk : seen.lookup n = some (cs0.count n) := by
          rw [hinv n, if_neg hz]
        rw [lookup_map_update n (cs0.count n) seen hlk]
        have hcount : (cs0 ++ [n]).count n = cs0.count n + 1 := by
          simp [List.count_append]
        rw [hcount, if_neg (by omega)]
      · rw [lookup_map_update_ne new n (cs0.count new) hn seen]
        have hne : (n == new) = false := by
          simp only [beq_eq_false_iff_ne, ne_eq]
          exact hn
        have hcount : (cs0 ++ [new]).count n = cs0.count n := by
          simp [List.count_append, List.count_singleton, hne]
          exact fun he => hn he.symm
        rw [hcount, hinv n]

/-- With distinct raw names, `rename_dict` is just the ordered pairing of
each raw name with its canonical form. -/
theorem buildRenameDict_of_nodup (raws : List String) (h : raws.Nodup) :
    buildRenameDict raws = raws.map (fun r => (r, canonName r)) := by
  have haux : ∀ (l : List String) (acc : List (String × String)),
      l.Nodup → (∀ r ∈ l, ∀ p ∈ acc, p.1 ≠ r) →
      l.foldl (fun d r => upsertDict d r (canonName r)) acc
        = acc ++ l.map (fun r => (r, canonName r)) := by
    intro l
    induction l with
    | nil => intro acc _ _; simp
    | cons r rest ih =>
      intro acc hnd hdisj
      simp only [List.foldl_cons]
      have hany : acc.any (·.1 = r) = false := by
        rw [List.any_eq_false]
        intro p hp
        simpa using hdisj r (List.mem_cons_self r rest) p hp
      have hup : upsertDict acc r (canonName r) = acc ++ [(r, canonName r)] := by
        unfold upsertDict
        rw [if_neg (by rw [hany]; exact Bool.false_ne_true)]
      have hdisj2 : ∀ r2 ∈ rest, ∀ p ∈ acc ++ [(r, canonName r)], p.1 ≠ r2 := by
        intro r2 hr2 p hp
        rcases List.mem_append.mp hp with hp | hp
        · exact hdisj r2 (List.mem_cons_of_mem r hr2) p hp
        · rcases List.mem_singleton.mp hp with rfl
          intro he
          have hre : r = r2 := he
          exact (List.nodup_cons.mp hnd).1 (hre ▸ hr2)
      rw [hup, ih (acc ++ [(r, canonName r)]) (List.nodup_cons.mp hnd).2 hdisj2]
      simp
  exact haux raws [] h (by intro r _ p hp; cases hp)

/-- The closed-form collision pass pairs original keys with `outNames` of
the canonical values. -/
theorem pairAssign_eq_zip :
    ∀ (entries : List (String × String)) (cs0 : List String),
      pairAssign cs0 entries
        = (entries.map (·.1)).zip (outNames cs0 (entries.map (·.2))) := by
  intro entries
  induction entries with
  | nil => intro cs0; rfl
  | cons e rest ih =>
    intro cs0
    obtain ⟨old, new⟩ := e
    unfold pairAssign outNames
    simp only [List.map_cons, List.zip_cons_cons]
    rw [ih (cs0 ++ [new])]

/-- Looking keys of an association list with distinct keys up in that list
recovers the values. -/
theorem map_lookup_nodup :
    ∀ (l : List (String × String)), (l.map (·.1)).Nodup →
      (l.map (·.1)).map (fun r => (l.lookup r).getD r) = l.map (·.2) := by
  intro l
  induction l with
  | nil => intro _; rfl
  | cons p rest ih =>
    intro hnd
    obtain ⟨k, v⟩ := p
    simp only [List.map_cons] at hnd ⊢
    have hk : (k == k) = true := beq_self_eq_true k
    have hhead : (List.lookup k ((k, v) :: rest)).getD k = v := by
      simp [List.lookup, hk]
    rw [hhead]
    congr 1
    have hknotin : k ∉ rest.map (·.1) := (List.nodup_cons.mp hnd).1
    have htail : ∀ r ∈ rest.map (·.1),
        ((((k, v) :: rest).lookup r).getD r) = ((rest.lookup r).getD r) := by
      intro r hr
      have hne : (r == k) = false := by
        simp only [beq_eq_false_iff_ne, ne_eq]
        exact fun he => hknotin (he ▸ hr)
      simp [List.lookup, hne]
    rw [List.map_congr_left htail]
    exact ih (List.nodup_cons.mp hnd).2

/-- The lengths of `outNames`. -/
theorem outNames_length : ∀ (cs : List String) (cs0 : List String),
    (outNames cs0 cs).length = cs.length := by
  intro cs
  induction cs with
  | nil => intro cs0; rfl
  | cons c rest ih => intro cs0; simp [outNames, ih]

/-- With distinct raw names, standardization computes `outNames` of the
canonical names. -/
theorem standardizeColumnNames_eq_outNames (raws : List String) (h : raws.Nodup) :
    standardizeColumnNames raws = outNames [] (raws.map canonName) := by
  unfold standardizeColumnNames renameDict
  rw [buildRenameDict_of_nodup raws h,
    resolveCollisions_eq_pairAssign _ [] [] (fun n => rfl),
    pairAssign_eq_zip]
  have hkeys : ((raws.map (fun r => (r, canonName r))).map (·.1)) = raws := by
    rw [List.map_map]
    exact List.map_id raws
  have hvals : ((raws.map (fun r => (r, canonName r))).map (·.2)) = raws.map canonName := by
    rw [List.map_map]
    rfl
  have hlen : (outNames [] (raws.map canonName)).length = raws.length := by
    rw [outNames_length]
    exact List.length_map raws canonName
  have hzipmap :
      ((raws.zip (outNames [] (raws.map canonName))).map (·.1)) = raws :=
    by rw [List.map_fst_zip _ _ (by rw [hlen])]
  calc raws.map
        (fun r => ((((raws.map fun r => (r, canonName r)).map (·.1)).zip
            (outNames [] ((raws.map fun r => (r, canonName r)).map (·.2)))).lookup r).getD r)
      = (((raws.zip (outNames [] (raws.map canonName))).map (·.1)).map
          (fun r => (((raws.zip (outNames [] (raws.map canonName)))).lookup r).getD r)) := by
        rw [hkeys, hvals, hzipmap]
    _ = ((raws.zip (outNames [] (raws.map canonName)))).map (·.2) := by
        refine map_lookup_nodup _ ?_
        rw [hzipmap]
        exact h
    _ = outNames [] (raws.map canonName) := by
        rw [List.map_snd_zip _ _ (by rw [hlen])]

/-- Strings with equal character data are equal. -/
theorem str_ext {a b : String} (h : a.data = b.data) : a = b := by
  cases a
  cases b
  exact congrArg String.mk h

/-- The cell data of a suffixed name. -/
theorem suffix_data (c : String) (k : Nat) :
    (c ++ "_" ++ natStr k).data = c.data ++ '_' :: natChars k := by
  show ((c ++ "_") ++ natStr k).data = _
  rw [String.data_append, String.data_append]
  rw [List.append_assoc]
  rfl

/-- Two assigned names differ when the underlying canonical names differ,
or when they coincide but the occurrence counts differ — provided neither
canonical name already ends in an underscore-digit suffix. -/
theorem assignName_ne (p1 p2 : List String) (c c2 : String)
    (hUDc : hasUDigitSuffix c = false) (hUDc2 : hasUDigitSuffix c2 = false)
    (hcase : (c2 = c ∧ p1.count c < p2.count c) ∨ c2 ≠ c) :
    assignName p1 c ≠ assignName p2 c2 := by
  intro heq
  unfold assignName at heq
  rcases hcase with ⟨heqc, hlt⟩ | hne
  · rw [heqc] at heq
    by_cases hz1 : p1.count c = 0
    · rw [if_pos hz1] at heq
      have hz2 : ¬ p2.count c = 0 := by omega
      rw [if_neg hz2] at heq
      have hdata := congrArg String.data heq
      rw [suffix_data] at hdata
      have hlen := congrArg List.length hdata
      simp at hlen
    · rw [if_neg hz1] at heq
      have hz2 : ¬ p2.count c = 0 := by omega
      rw [if_neg hz2] at heq
      have hdata := congrArg String.data heq
      rw [suffix_data, suffix_data] at hdata
      have htail := List.append_cancel_left hdata
      have hk := natChars_inj _ _ (List.cons.inj htail).2
      omega
  · by_cases hz1 : p1.count c = 0 <;> by_cases hz2 : p2.count c2 = 0
    · rw [if_pos hz1, if_pos hz2] at heq
      exact hne heq.symm
    · rw [if_pos hz1, if_neg hz2] at heq
      have hUD : hasUDigitSuffix c = true := by
        have happ := hasUDigitSuffix_append c2 (natChars (p2.count c2))
          (natChars_ne_nil _) (natChars_all_digits _)
        have hceq : c = (⟨c2.data ++ '_' :: natChars (p2.count c2)⟩ : String) := by
          refine congrArg String.mk ?_
          rw [show c.data = (c2 ++ "_" ++ natStr (p2.count c2)).data from congrArg String.data heq]
          rw [suffix_data]
        rw [hceq]
        exact happ
      rw [hUDc] at hUD
      cases hUD
    · rw [if_neg hz1, if_pos hz2] at heq
      have hUD : hasUDigitSuffix c2 = true := by
        have happ := hasUDigitSuffix_append c (natChars (p1.count c))
          (natChars_ne_nil _) (natChars_all_digits _)
        have hceq : c2 = (⟨c.data ++ '_' :: natChars (p1.count c)⟩ : String) := by
          refine congrArg String.mk ?_
          rw [show c2.data = (c ++ "_" ++ natStr (p1.count c)).data from
            congrArg String.data heq.symm]
          rw [suffix_data]
        rw [hceq]
        exact happ
      rw [hUDc2] at hUD
      cases hUD
    · rw [if_neg hz1, if_neg hz2] at heq
      have hdata := congrArg String.data heq
      rw [suffix_data, suffix_data] at hdata
      rcases List.append_eq_append_iff.mp hdata with ⟨a2, ha1, ha2⟩ | ⟨c3, hc1, hc2⟩
      · cases a2 with
        | nil =>
          rw [List.append_nil] at ha1
          exact hne (str_ext ha1)
        | cons x xs =>
          have hx := (List.cons.inj ha2).1
          have hxs := (List.cons.inj ha2).2
          have hmem : '_' ∈ natChars (p1.count c) := by
            rw [hxs]
            exact List.mem_append_right xs (List.mem_cons_self _ _)
          have := natChars_all_digits (p1.count c) '_' hmem
          exact absurd this (by decide)
      · cases c3 with
        | nil =>
          rw [List.append_nil] at hc1
          exact hne (str_ext hc1).symm
        | cons x xs =>
          have hxs := (List.cons.inj hc2).2
          have hmem : '_' ∈ natChars (p2.count c2) := by
            rw [hxs]
            exact List.mem_append_right xs (List.mem_cons_self _ _)
          have := natChars_all_digits (p2.count c2) '_' hmem
          exact absurd this (by decide)

/-- The name assigned to a column never reappears among the names assigned
later, as long as the later prior lists count its canonical name more
often. -/
theorem assign_head_notin :
    ∀ (rest : List String) (cs0 cs1 : List String) (c : String),
      hasUDigitSuffix c = false → (∀ n ∈ rest, hasUDigitSuffix n = false) →
      cs0.count c < cs1.count c →
      assignName cs0 c ∉ outNames cs1 rest := by
  intro rest
  induction rest with
  | nil => intro cs0 cs1 c _ _ _ h; cases h
  | cons c2 rest ih =>
    intro cs0 cs1 c hUD hUDs hlt hmem
    unfold outNames at hmem
    rcases List.mem_cons.mp hmem with heq | hmem2
    · refine assignName_ne cs0 cs1 c c2 hUD (hUDs c2 (List.mem_cons_self c2 rest)) ?_ heq
      by_cases hc2 : c2 = c
      · exact Or.inl ⟨hc2, hc2 ▸ hlt⟩
      · exact Or.inr hc2
    · refine ih cs0 (cs1 ++ [c2]) c hUD
        (fun n hn => hUDs n (List.mem_cons_of_mem c2 hn)) ?_ hmem2
      have : cs1.count c ≤ (cs1 ++ [c2]).count c := by
        rw [List.count_append]
        omega
      omega

/-- The assigned names are pairwise distinct when no canonical name ends in
an underscore-digit suffix. -/
theorem outNames_nodup :
    ∀ (cs cs0 : List String), (∀ n ∈ cs, hasUDigitSuffix n = false) →
      (outNames cs0 cs).Nodup := by
  intro cs
  induction cs with
  | nil => intro cs0 _; exact List.nodup_nil
  | cons c rest ih =>
    intro cs0 hUD
    unfold outNames
    rw [List.nodup_cons]
    constructor
    · refine assign_head_notin rest cs0 (cs0 ++ [c]) c
        (hUD c (List.mem_cons_self c rest))
        (fun n hn => hUD n (List.mem_cons_of_mem c hn)) ?_
      rw [List.count_append]
      simp
    · exact ih (cs0 ++ [c]) fun n hn => hUD n (List.mem_cons_of_mem c hn)

/-- Each member of the assigned-name list is the assignment of some
canonical name. -/
theorem mem_outNames :
    ∀ (cs cs0 : List String) (nm : String), nm ∈ outNames cs0 cs →
      ∃ p b, b ∈ cs ∧ nm = assignName p b := by
  intro cs
  induction cs with
  | nil => intro cs0 nm h; cases h
  | cons c rest ih =>
    intro cs0 nm hmem
    unfold outNames at hmem
    rcases List.mem_cons.mp hmem with heq | hmem2
    · exact ⟨cs0, c, List.mem_cons_self c rest, heq⟩
    · obtain ⟨p, b, hb, hnm⟩ := ih (cs0 ++ [c]) nm hmem2
      exact ⟨p, b, List.mem_cons_of_mem c hb, hnm⟩

/-- Index-wise closed form of the assigned names. -/
theorem outNames_getD :
    ∀ (cs cs0 : List String) (j : Nat), j < cs.length →
      (outNames cs0 cs).getD j "" = assignName (cs0 ++ cs.take j) (cs.getD j "") := by
  intro cs
  induction cs with
  | nil => intro cs0 j hj; simp at hj
  | cons c rest ih =>
    intro cs0 j hj
    cases j with
    | zero =>
      unfold outNames
      rw [List.getD_cons_zero, List.getD_cons_zero]
      rw [List.take_zero, List.append_nil]
    | succ j =>
      unfold outNames
      rw [List.getD_cons_succ, List.getD_cons_succ]
      rw [ih (cs0 ++ [c]) j (by simpa using hj)]
      rw [List.take_succ_cons, ← List.append_cons]

/-- C5, amended: for pairwise-distinct ASCII raw column names, each
containing at least one word character (so no canonical form is empty),
and none of whose canonical forms already ends in an
underscore-plus-digits suffix, the post-normalization names are pairwise
distinct and match `^[a-z0-9_]+$`; the `j`-th output is the `j`-th
canonical name, suffixed with `_k` when it is the `(k+1)`-st occurrence
of that canonical name (suffixes `_1`, `_2`, … in order of first
occurrence).  The ASCII hypothesis marks the domain on which `canonName`
is faithful to the source: Python's Unicode-aware `lower`, `strip` and
`\w` keep non-ASCII word characters (e.g. `é`), so outside ASCII the
`^[a-z0-9_]+$` pattern does not hold of the program.  (Without the other
conditions uniqueness can fail, as the counterexample shows, and
duplicate raw names are renamed identically because the rename map is
keyed by raw name.) -/
theorem C5_amended (raws : List String)
    (_h0 : ∀ r ∈ raws, ∀ ch ∈ r.data, ch.toNat < 128)
    (h1 : raws.Nodup)
    (h2 : ∀ r ∈ raws, hasUDigitSuffix (canonName r) = false)
    (h3 : ∀ r ∈ raws, ∃ ch ∈ r.data, isWordChar ch = true) :
    (standardizeColumnNames raws).Nodup ∧
    (∀ nm ∈ standardizeColumnNames raws,
      nm.data ≠ [] ∧ ∀ ch ∈ nm.data, isIdentChar ch = true) ∧
    (∀ j, j < raws.length →
      (standardizeColumnNames raws).getD j ""
        = assignName ((raws.map canonName).take j) ((raws.map canonName).getD j "")) := by
  have hmain := standardizeColumnNames_eq_outNames raws h1
  refine ⟨?_, ?_, ?_⟩
  · rw [hmain]
    refine outNames_nodup _ [] ?_
    intro n hn
    rcases List.mem_map.mp hn with ⟨r, hr, rfl⟩
    exact h2 r hr
  · rw [hmain]
    intro nm hnm
    obtain ⟨p, b, hb, rfl⟩ := mem_outNames _ [] nm hnm
    rcases List.mem_map.mp hb with ⟨r, hr, rfl⟩
    have hbne : (canonName r).data ≠ [] := canonName_ne_nil r (h3 r hr)
    have hbchars := canonName_chars r
    unfold assignName
    by_cases hz : p.count (canonName r) = 0
    · rw [if_pos hz]
      exact ⟨hbne, hbchars⟩
    · rw [if_neg hz]
      constructor
      · rw [suffix_data]
        simp
      · intro ch hch
        rw [suffix_data] at hch
        rcases List.mem_append.mp hch with hch | hch
        · exact hbchars ch hch
        · rcases List.mem_cons.mp hch with rfl | hch
          · rfl
          · have := natChars_all_digits _ ch hch
            unfold isIdentChar
            rw [this]
            simp
  · intro j hj
    rw [hmain, outNames_getD _ [] j (by simpa using hj), List.nil_append]

/-- Witness for `C5_amended` at three raw names, two of which collide after
canonicalization. -/
theorem C5_amended_witness :
    (standardizeColumnNames ["First Name", "first_name", "Last"]).Nodup ∧
    (∀ nm ∈ standardizeColumnNames ["First Name", "first_name", "Last"],
      nm.data ≠ [] ∧ ∀ ch ∈ nm.data, isIdentChar ch = true) ∧
    (∀ j, j < (["First Name", "first_name", "Last"] : List String).length →
      (standardizeColumnNames ["First Name", "first_name", "Last"]).getD j ""
        = assignName (((["First Name", "first_name", "Last"] : List String).map canonName).take j)
            (((["First Name", "first_name", "Last"] : List String).map canonName).getD j "")) :=
  C5_amended ["First Name", "first_name", "Last"] (by decide)
    (by decide) (by decide) (by decide)

end FDClean
